import Mathlib

/-!
Formal model of the survey backend in `src/main.py`.

The service stores submitted survey payloads as JSON-encoded strings in an
append-only table and exposes three operations: `submit` (validate and append),
`admin/list` (newest 200 rows, with a raw-string fallback for undecodable
payloads) and `admin/summary` (a single-pass tally of categorical answers into
label/value histograms).

Python's `json.dumps` / `json.loads` are modelled by an executable serializer
and a fuel-based recursive-descent parser over a `Json` value type; JSON
numbers are modelled as integers (floating point is outside the shallow
embedding, and the serialized payloads of this service never contain
fractions).  Python's `str.strip` is modelled over the character list with the
CPython whitespace set.
-/

/-- Whitespace characters stripped by Python's `str.strip()` (the CPython
`Py_UNICODE_ISSPACE` set). -/
def pyWs (c : Char) : Bool :=
  c.toNat ∈ [9, 10, 11, 12, 13, 28, 29, 30, 31, 32, 133, 160, 5760,
             8192, 8193, 8194, 8195, 8196, 8197, 8198, 8199, 8200, 8201, 8202,
             8232, 8233, 8239, 8287, 12288]

/-- Drop trailing whitespace from a character list. -/
def dropTrailWs (l : List Char) : List Char :=
  (l.reverse.dropWhile pyWs).reverse

/-- Characters of `s.strip()`: leading and trailing whitespace removed. -/
def stripChars (l : List Char) : List Char :=
  dropTrailWs (l.dropWhile pyWs)

/-- Model of Python's `str.strip()`. -/
def pyStrip (s : String) : String :=
  ⟨stripChars s.data⟩

mutual

/-- JSON values as handled by Python's `json` module, with numbers restricted
to integers.  Object fields keep their (insertion) order, as Python dicts do. -/
inductive Json where
  | null : Json
  | bool (b : Bool) : Json
  | num (n : Int) : Json
  | str (s : String) : Json
  | arr (items : JsonList) : Json
  | obj (fields : JsonObj) : Json

/-- Elements of a JSON array, in order. -/
inductive JsonList where
  | nil : JsonList
  | cons (hd : Json) (tl : JsonList) : JsonList

/-- Fields of a JSON object, in insertion order. -/
inductive JsonObj where
  | nil : JsonObj
  | cons (key : String) (val : Json) (tl : JsonObj) : JsonObj

end

/-- Python `dict.get`: the value bound to `f`, if any. -/
def objGet : JsonObj → String → Option Json
  | .nil, _ => none
  | .cons k v t, f => if k = f then some v else objGet t f

/-- Whether the object binds key `k`. -/
def objHasKey : JsonObj → String → Bool
  | .nil, _ => false
  | .cons k0 _ t, k => k0 = k || objHasKey t k

/-- Python dict assignment `d[k] = v`: overwrite in place if the key exists,
otherwise append the binding at the end. -/
def objInsert : JsonObj → String → Json → JsonObj
  | .nil, k, v => .cons k v .nil
  | .cons k0 v0 t, k, v =>
      if k0 = k then .cons k0 v t else .cons k0 v0 (objInsert t k v)

/-- Build a dict from a key/value sequence, later duplicate keys overwriting
earlier ones, as Python's JSON object decoding does. -/
def objOfPairs (ps : List (String × Json)) : JsonObj :=
  ps.foldl (fun o kv => objInsert o kv.1 kv.2) .nil

mutual

/-- JSON-safe values: every object in the tree has pairwise-distinct keys
(the invariant of every value representable as a Python dict tree). -/
def safeV : Json → Bool
  | .null => true
  | .bool _ => true
  | .num _ => true
  | .str _ => true
  | .arr xs => safeL xs
  | .obj fs => safeO fs

/-- JSON-safety of every element of an array. -/
def safeL : JsonList → Bool
  | .nil => true
  | .cons h t => safeV h && safeL t

/-- JSON-safety of an object: keys pairwise distinct, values safe. -/
def safeO : JsonObj → Bool
  | .nil => true
  | .cons k v t => !objHasKey t k && safeV v && safeO t

end

/-- The `"` character. -/
def qchar : Char := Char.ofNat 34

/-- The `\` character. -/
def bslash : Char := Char.ofNat 92

/-- Opening curly brace. -/
def lbrace : Char := Char.ofNat 123

/-- Closing curly brace. -/
def rbrace : Char := Char.ofNat 125

/-- Decimal digit character for `d < 10`. -/
def digitChar (d : Nat) : Char := Char.ofNat (48 + d)

/-- Lowercase hexadecimal digit character for `d < 16`, as Python's
`'\\u%04x' % c` formatting produces. -/
def hexDigitChar (d : Nat) : Char :=
  Char.ofNat (if d < 10 then 48 + d else 87 + d)

/-- Big-endian decimal digits of `n` (with fuel; `n < fuel` suffices). -/
def natDigits : Nat → Nat → List Nat
  | 0, _ => []
  | f + 1, n => if n < 10 then [n] else natDigits f (n / 10) ++ [n % 10]

/-- Decimal character rendering of a natural number. -/
def natToChars (n : Nat) : List Char :=
  (natDigits (n + 1) n).map digitChar

/-- Decimal rendering of an integer, as Python prints `int`. -/
def intChars (n : Int) : List Char :=
  if n < 0 then '-' :: natToChars (-n).toNat else natToChars n.toNat

/-- Escaping of one character inside a JSON string, following CPython's
`json.encoder.py_encode_basestring` (used with `ensure_ascii=False`): only
`"`, `\\` and control characters are escaped. -/
def escapeChar (c : Char) : List Char :=
  if c = qchar then [bslash, qchar]
  else if c = bslash then [bslash, bslash]
  else if c = '\x08' then [bslash, 'b']
  else if c = '\x0c' then [bslash, 'f']
  else if c = '\n' then [bslash, 'n']
  else if c = '\r' then [bslash, 'r']
  else if c = '\t' then [bslash, 't']
  else if c.toNat < 32 then
    [bslash, 'u', '0', '0', hexDigitChar (c.toNat / 16), hexDigitChar (c.toNat % 16)]
  else [c]

/-- Escape a whole character sequence. -/
def escapeList (l : List Char) : List Char :=
  l.flatMap escapeChar

/-- Serialized form of a JSON string literal. -/
def strChars (s : String) : List Char :=
  qchar :: escapeList s.data ++ [qchar]

mutual

/-- Characters of `json.dumps(v, ensure_ascii=False)` with the default
separators `", "` and `": "`. -/
def dumpsV : Json → List Char
  | .null => "null".data
  | .bool true => "true".data
  | .bool false => "false".data
  | .num n => intChars n
  | .str s => strChars s
  | .arr .nil => ['[', ']']
  | .arr (.cons h t) => '[' :: dumpsItems (.cons h t) ++ [']']
  | .obj .nil => [lbrace, rbrace]
  | .obj (.cons k v t) => lbrace :: dumpsFields (.cons k v t) ++ [rbrace]

/-- Comma-separated serialization of array elements. -/
def dumpsItems : JsonList → List Char
  | .nil => []
  | .cons h .nil => dumpsV h
  | .cons h (.cons h2 t) => dumpsV h ++ ',' :: ' ' :: dumpsItems (.cons h2 t)

/-- Comma-separated serialization of object fields. -/
def dumpsFields : JsonObj → List Char
  | .nil => []
  | .cons k v .nil => strChars k ++ ':' :: ' ' :: dumpsV v
  | .cons k v (.cons k2 v2 t) =>
      strChars k ++ ':' :: ' ' :: dumpsV v ++ ',' :: ' ' :: dumpsFields (.cons k2 v2 t)

end

/-- Model of `json.dumps(v, ensure_ascii=False)`. -/
def dumps (j : Json) : String :=
  ⟨dumpsV j⟩

/-- JSON insignificant whitespace (RFC 8259 / Python `json` WHITESPACE). -/
def jsonWs (c : Char) : Bool :=
  c = ' ' || c = '\t' || c = '\n' || c = '\r'

/-- Skip insignificant whitespace. -/
def skipWs : List Char → List Char
  | [] => []
  | c :: cs => if jsonWs c then skipWs cs else c :: cs

/-- Value of one hexadecimal digit character. -/
def hexVal (c : Char) : Option Nat :=
  if 48 ≤ c.toNat ∧ c.toNat ≤ 57 then some (c.toNat - 48)
  else if 97 ≤ c.toNat ∧ c.toNat ≤ 102 then some (c.toNat - 87)
  else if 65 ≤ c.toNat ∧ c.toNat ≤ 70 then some (c.toNat - 55)
  else none

/-- Whether a code point is a Unicode scalar value representable as a `Char`
(Python would also accept surrogate escapes, producing strings this embedding
cannot represent; such inputs are rejected here). -/
def validCode (n : Nat) : Bool :=
  n < 55296 || (57343 < n && n < 1114112)

/-- Prepend a decoded element to the first component of a parse result. -/
def mapPair (g : α → β) : Option (α × List Char) → Option (β × List Char)
  | some (a, r) => some (g a, r)
  | none => none

/-- The single-character JSON escapes (Python's `BACKSLASH` table). -/
def escDecode (e : Char) : Option Char :=
  if e = qchar then some qchar
  else if e = bslash then some bslash
  else if e = '/' then some '/'
  else if e = 'b' then some '\x08'
  else if e = 'f' then some '\x0c'
  else if e = 'n' then some '\n'
  else if e = 'r' then some '\r'
  else if e = 't' then some '\t'
  else none

/-- Body of a JSON string literal after the opening quote: returns the decoded
characters and the input remaining after the closing quote.  Unescaped control
characters are rejected (Python's default `strict=True`), and a `\u` escape
must denote a Unicode scalar value (Python would also accept surrogate
escapes, producing strings this embedding cannot represent). -/
def parseStrBody : List Char → Option (List Char × List Char)
  | [] => none
  | c :: cs =>
    if c = qchar then some ([], cs)
    else if c = bslash then
      match cs with
      | [] => none
      | e :: cs2 =>
        if e = 'u' then
          match cs2 with
          | h1 :: h2 :: h3 :: h4 :: cs3 =>
            match hexVal h1, hexVal h2, hexVal h3, hexVal h4 with
            | some v1, some v2, some v3, some v4 =>
              if validCode (4096 * v1 + 256 * v2 + 16 * v3 + v4) then
                mapPair (fun o => Char.ofNat (4096 * v1 + 256 * v2 + 16 * v3 + v4) :: o)
                  (parseStrBody cs3)
              else none
            | _, _, _, _ => none
          | _ => none
        else
          match escDecode e with
          | some d => mapPair (fun o => d :: o) (parseStrBody cs2)
          | none => none
    else if c.toNat < 32 then none
    else mapPair (fun o => c :: o) (parseStrBody cs)

/-- Whether a character is a decimal digit. -/
def isDigit (c : Char) : Bool :=
  48 ≤ c.toNat && c.toNat ≤ 57

/-- Greedily consume decimal digits, returning their values and the rest. -/
def takeDigits : List Char → List Nat × List Char
  | [] => ([], [])
  | c :: cs =>
    if isDigit c then
      let (ds, r) := takeDigits cs
      ((c.toNat - 48) :: ds, r)
    else ([], c :: cs)

/-- Numeric value of big-endian decimal digits. -/
def valOfDigits (ds : List Nat) : Nat :=
  ds.foldl (fun a d => 10 * a + d) 0

/-- Reject a parsed integer that is followed by a fraction or exponent part:
those are floats, which this integer-valued embedding does not represent. -/
def floatGuard (n : Nat) : List Char → Option (Nat × List Char)
  | [] => some (n, [])
  | c :: cs =>
    if c = '.' || c = 'e' || c = 'E' then none else some (n, c :: cs)

/-- Unsigned part of a JSON number: `0` or a nonzero digit followed by digits
(the JSON grammar admits no leading zeros). -/
def parseNatNum : List Char → Option (Nat × List Char)
  | [] => none
  | c :: cs =>
    if c = '0' then floatGuard 0 cs
    else if isDigit c then
      let (ds, r) := takeDigits cs
      floatGuard (valOfDigits ((c.toNat - 48) :: ds)) r
    else none

/-- A JSON number (integer-valued). -/
def parseNum : List Char → Option (Int × List Char)
  | [] => none
  | c :: cs =>
    if c = '-' then
      match parseNatNum cs with
      | some (m, r) => some (-(m : Int), r)
      | none => none
    else
      match parseNatNum (c :: cs) with
      | some (m, r) => some ((m : Int), r)
      | none => none

mutual

/-- Recursive-descent JSON value parser with fuel (Python's decoder likewise
bounds nesting through the interpreter recursion limit).  Expects its input to
start at a non-whitespace character. -/
def parseValue : Nat → List Char → Option (Json × List Char)
  | 0, _ => none
  | _ + 1, [] => none
  | f + 1, c :: rest =>
    if c = 'n' then
      match rest with
      | 'u' :: 'l' :: 'l' :: r => some (.null, r)
      | _ => none
    else if c = 't' then
      match rest with
      | 'r' :: 'u' :: 'e' :: r => some (.bool true, r)
      | _ => none
    else if c = 'f' then
      match rest with
      | 'a' :: 'l' :: 's' :: 'e' :: r => some (.bool false, r)
      | _ => none
    else if c = qchar then
      mapPair (fun o => Json.str ⟨o⟩) (parseStrBody rest)
    else if c = '[' then
      match skipWs rest with
      | [] => none
      | d :: r2 =>
        if d = ']' then some (.arr .nil, r2)
        else mapPair Json.arr (parseItems f (d :: r2))
    else if c = lbrace then
      match skipWs rest with
      | [] => none
      | d :: r2 =>
        if d = rbrace then some (.obj .nil, r2)
        else mapPair (fun ps => Json.obj (objOfPairs ps)) (parseFields f (d :: r2))
    else
      mapPair Json.num (parseNum (c :: rest))

/-- Elements of a nonempty JSON array, consuming the closing bracket. -/
def parseItems : Nat → List Char → Option (JsonList × List Char)
  | 0, _ => none
  | f + 1, cs =>
    (parseValue f cs).bind fun vr =>
      match skipWs vr.2 with
      | ',' :: r2 => mapPair (fun vs => JsonList.cons vr.1 vs) (parseItems f (skipWs r2))
      | ']' :: r2 => some (.cons vr.1 .nil, r2)
      | _ => none

/-- Fields of a nonempty JSON object, consuming the closing brace; keys must
be string literals. -/
def parseFields : Nat → List Char → Option (List (String × Json) × List Char)
  | 0, _ => none
  | f + 1, cs =>
    match cs with
    | [] => none
    | c :: rest =>
      if c = qchar then
        match parseStrBody rest with
        | none => none
        | some (kcs, r1) =>
          match skipWs r1 with
          | ':' :: r2 =>
            (parseValue f (skipWs r2)).bind fun vr =>
              match skipWs vr.2 with
              | ',' :: r4 =>
                mapPair (fun ps => (String.mk kcs, vr.1) :: ps) (parseFields f (skipWs r4))
              | d :: r4 =>
                if d = rbrace then some ([(String.mk kcs, vr.1)], r4) else none
              | [] => none
          | _ => none
      else none

end

/-- Model of `json.loads`: parse one JSON document, requiring only trailing
whitespace after it.  The fuel `2 * length + 2` admits every nesting depth a
document of that length can have. -/
def loads (s : String) : Option Json :=
  match parseValue (2 * s.data.length + 2) (skipWs s.data) with
  | some (j, r) => if skipWs r = [] then some j else none
  | none => none

/-- Whether a stored payload string parses as JSON at all. -/
def parses (s : String) : Bool :=
  (loads s).isSome

/-- Whether a stored payload string parses as a JSON object. -/
def parsesAsObj (s : String) : Bool :=
  match loads s with
  | some (.obj _) => true
  | _ => false

/-- A counting map as `collections.Counter` behaves when keys are only ever
incremented: an association list in first-insertion order. -/
abbrev Counter := List (String × Nat)

/-- Bump the count of `k`, appending a fresh key with count 1 at the end
(Python dicts append new keys in insertion order). -/
def counterIncr : Counter → String → Counter
  | [], k => [(k, 1)]
  | (k0, n) :: t, k =>
      if k0 = k then (k0, n + 1) :: t else (k0, n) :: counterIncr t k

/-- Count each value of `vs` in turn. -/
def counterAddAll (c : Counter) (vs : List String) : Counter :=
  vs.foldl counterIncr c

/-- Stable insertion of `x` into a list sorted by non-increasing `key`:
`x` goes after every strictly larger element and before ties, matching the
stability of Python's `sorted`. -/
def insDescBy (key : α → Nat) (x : α) : List α → List α
  | [] => [x]
  | y :: ys => if key x < key y then y :: insDescBy key x ys else x :: y :: ys

/-- Stable sort by non-increasing `key`: the model of Python's
`sorted(items, key=itemgetter(1), reverse=True)` used by
`Counter.most_common`. -/
def sortDescBy (key : α → Nat) : List α → List α
  | [] => []
  | x :: xs => insDescBy key x (sortDescBy key xs)

/-- A histogram as returned by the summary endpoint: parallel label/count
arrays. -/
structure Histogram where
  labels : List String
  values : List Nat
deriving DecidableEq

/-- Model of `counter_to_labels_values` in `admin_summary`:
`Counter.most_common()` sorts the entries by descending count (stable), and
the two parallel arrays are their keys and counts. -/
def counter_to_labels_values (c : Counter) : Histogram :=
  let items := sortDescBy Prod.snd c
  ⟨items.map Prod.fst, items.map Prod.snd⟩

/-- The enumerated single-valued survey fields of `admin_summary`. -/
def single_fields : List String :=
  ["age", "app_rating", "will_use", "legal_status",
   "ai_use_work", "ai_sources_pref", "ai_trust", "ai_feature", "ai_disclaimer"]

/-- The enumerated multi-valued survey fields of `admin_summary`. -/
def multi_fields : List String :=
  ["why_use", "signup", "payment"]

/-- The values a single field contributes for one payload: its trimmed string
value when it is a string that is non-blank after stripping, else nothing. -/
def obsSingle (f : String) (p : JsonObj) : List String :=
  match objGet p f with
  | some (.str v) => if pyStrip v ≠ "" then [pyStrip v] else []
  | _ => []

/-- The trimmed non-blank string elements of a list value, in order;
non-string elements are skipped. -/
def obsMultiItems : JsonList → List String
  | .nil => []
  | .cons (.str v) t => (if pyStrip v ≠ "" then [pyStrip v] else []) ++ obsMultiItems t
  | .cons _ t => obsMultiItems t

/-- The values a multi field contributes for one payload: the trimmed
non-blank string elements when the field holds a list, else nothing. -/
def obsMulti (f : String) (p : JsonObj) : List String :=
  match objGet p f with
  | some (.arr xs) => obsMultiItems xs
  | _ => []

/-- The loop state of `admin_summary`: the running total and one counter per
configured field. -/
structure AggState where
  total : Nat
  singles : List (String × Counter)
  multis : List (String × Counter)

/-- Initial loop state: empty counters for every configured field. -/
def initAgg : AggState :=
  ⟨0, single_fields.map (fun f => (f, [])), multi_fields.map (fun f => (f, []))⟩

/-- Process one successfully parsed object payload: increment the total and
count its single- and multi-field values. -/
def aggPayload (st : AggState) (p : JsonObj) : AggState :=
  { total := st.total + 1
    singles := st.singles.map (fun fc => (fc.1, counterAddAll fc.2 (obsSingle fc.1 p)))
    multis := st.multis.map (fun fc => (fc.1, counterAddAll fc.2 (obsMulti fc.1 p))) }

/-- The scan of `admin_summary` over the stored payload strings: a payload
that fails to parse is silently skipped; one that parses to a non-object is
counted into `total` and then crashes the whole request with an
`AttributeError` when the code calls `p.get` on it, which the per-record
`try/except` around `json.loads` does not catch. -/
def aggLoop : AggState → List String → Except String AggState
  | st, [] => .ok st
  | st, s :: rest =>
    match loads s with
    | none => aggLoop st rest
    | some (.obj p) => aggLoop (aggPayload st p) rest
    | some _ => .error "AttributeError"

/-- The summary response body. -/
structure Summary where
  total : Nat
  single : List (String × Histogram)
  multi : List (String × Histogram)
deriving DecidableEq

/-- Assemble the response from the final loop state. -/
def mkSummary (st : AggState) : Summary :=
  ⟨st.total,
   st.singles.map (fun fc => (fc.1, counter_to_labels_values fc.2)),
   st.multis.map (fun fc => (fc.1, counter_to_labels_values fc.2))⟩

/-- Model of the `admin_summary` endpoint over the stored payload strings. -/
def adminSummary (rows : List String) : Except String Summary :=
  match aggLoop initAgg rows with
  | .ok st => .ok (mkSummary st)
  | .error e => .error e

/-- The single-field values one stored row contributes to field `f`. -/
def rowSingleObs (f : String) (s : String) : List String :=
  match loads s with
  | some (.obj p) => obsSingle f p
  | _ => []

/-- The multi-field values one stored row contributes to field `f`. -/
def rowMultiObs (f : String) (s : String) : List String :=
  match loads s with
  | some (.obj p) => obsMulti f p
  | _ => []

/-- All values observed for single field `f` across the scan, in scan order. -/
def observedSingle (f : String) (rows : List String) : List String :=
  rows.flatMap (rowSingleObs f)

/-- All values observed for multi field `f` across the scan, in scan order. -/
def observedMulti (f : String) (rows : List String) : List String :=
  rows.flatMap (rowMultiObs f)

/-- Distinct elements of a list in order of first occurrence. -/
def firstDedup (l : List String) : List String :=
  l.foldl (fun acc v => if v ∈ acc then acc else acc ++ [v]) []

/-- One stored row of the `responses` table. -/
structure Submission where
  id : Nat
  created_at : Nat
  payload : String
deriving DecidableEq

/-- The id `AUTOINCREMENT` assigns to the next insert of this append-only
table: one more than the largest id present. -/
def nextId (store : List Submission) : Nat :=
  (store.map Submission.id).foldr max 0 + 1

/-- The submit acknowledgment body. -/
structure SubmitResp where
  status : String
deriving DecidableEq

/-- An HTTP error response: status code and detail message. -/
structure HttpErr where
  status : Nat
  detail : String
deriving DecidableEq

/-- Model of the `submit` endpoint: require an object-typed `payload` field in
the body, JSON-encode it and append it to the store; otherwise reject with
400 and leave the store unchanged. -/
def submitOp (store : List Submission) (body : JsonObj) (now : Nat) :
    List Submission × Except HttpErr SubmitResp :=
  match objGet body "payload" with
  | some (.obj p) =>
      (store ++ [⟨nextId store, now, dumps (.obj p)⟩], .ok ⟨"saved"⟩)
  | _ => (store, .error ⟨400, "payload must be an object"⟩)

/-- One row of the `admin_list` response. -/
structure ListRow where
  id : Nat
  created_at : Nat
  payload : Json

/-- Decode a stored payload string for listing, substituting a raw-string
wrapper object when it does not parse. -/
def rowJson (s : String) : Json :=
  match loads s with
  | some j => j
  | none => .obj (.cons "raw" (.str s) .nil)

/-- Model of `SELECT ... ORDER BY id DESC LIMIT n` (ids are unique, so the
order is fully determined). -/
def listRecent (store : List Submission) (n : Nat) : List Submission :=
  (sortDescBy Submission.id store).take n

/-- Model of the `admin_list` endpoint: the newest 200 rows, each with its
payload decoded or wrapped. -/
def adminList (store : List Submission) : List ListRow :=
  (listRecent store 200).map (fun sub => ⟨sub.id, sub.created_at, rowJson sub.payload⟩)

/-- Modelled from the spec: the shared-secret gate of the repository's earlier
auth revision, whose code is not under `src/` (only the open revision is).
Per the spec, list/summary require a `password` string in the request body
equal to the server-held shared secret; an empty/unset secret means "not
configured" and fails closed with a server-misconfiguration error (500),
and a configured secret with a mismatching password fails with 401. -/
def checkAuth (secret : String) (body : JsonObj) : Except HttpErr Unit :=
  if secret = "" then .error ⟨500, "admin password not configured"⟩
  else
    match objGet body "password" with
    | some (.str pw) =>
        if pw = secret then .ok () else .error ⟨401, "unauthorized"⟩
    | _ => .error ⟨401, "unauthorized"⟩

/-- Modelled from the spec: `admin_summary` in the auth revision, gated by
`checkAuth`; an aggregation crash surfaces as a generic 500. -/
def authAdminSummary (secret : String) (body : JsonObj) (rows : List String) :
    Except HttpErr Summary :=
  match checkAuth secret body with
  | .error e => .error e
  | .ok _ =>
    match adminSummary rows with
    | .ok s => .ok s
    | .error m => .error ⟨500, m⟩

/-- Modelled from the spec: `admin_list` in the auth revision, gated by
`checkAuth`. -/
def authAdminList (secret : String) (body : JsonObj) (store : List Submission) :
    Except HttpErr (List ListRow) :=
  match checkAuth secret body with
  | .error e => .error e
  | .ok _ => .ok (adminList store)

/-- Total number of counted occurrences in a counter. -/
def sumCounts (c : Counter) : Nat :=
  (c.map Prod.snd).sum

/-- The first stored payload of the §8 scenario:
`age "18-24"`, `will_use ["yes"]`, `why_use ["speed", "cost"]`. -/
def scenarioP1 : Json :=
  .obj (.cons "age" (.str "18-24")
    (.cons "will_use" (.arr (.cons (.str "yes") .nil))
      (.cons "why_use" (.arr (.cons (.str "speed") (.cons (.str "cost") .nil))) .nil)))

/-- The second stored payload of the §8 scenario: `age "18-24"`,
`will_use "no"`. -/
def scenarioP2 : Json :=
  .obj (.cons "age" (.str "18-24") (.cons "will_use" (.str "no") .nil))

/-- Whether a stored payload string parses as JSON but not as an object. -/
def parsesAsNonObj (s : String) : Bool :=
  match loads s with
  | some (.obj _) => false
  | some _ => true
  | none => false

mutual

/-- Fuel needed by `parseValue` to parse the serialization of `j`. -/
def weightV : Json → Nat
  | .null => 1
  | .bool _ => 1
  | .num _ => 1
  | .str _ => 1
  | .arr xs => 1 + weightL xs
  | .obj fs => 1 + weightO fs

/-- Fuel needed by `parseItems` on the serialized elements of an array. -/
def weightL : JsonList → Nat
  | .nil => 0
  | .cons h t => 1 + weightV h + weightL t

/-- Fuel needed by `parseFields` on the serialized fields of an object. -/
def weightO : JsonObj → Nat
  | .nil => 0
  | .cons _ v t => 1 + weightV v + weightO t

end

/-- The field list of an object as a key/value pair sequence. -/
def pairsOf : JsonObj → List (String × Json)
  | .nil => []
  | .cons k v t => (k, v) :: pairsOf t

/-- Concatenation of two field lists. -/
def objConcat : JsonObj → JsonObj → JsonObj
  | .nil, o => o
  | .cons k v t, o => .cons k v (objConcat t o)

/-- Whether the input following a serialized number cannot extend it: it is
empty or starts with a character that is neither a digit nor a fraction or
exponent marker.  Every context of the serializer satisfies this. -/
def restOk : List Char → Bool
  | [] => true
  | c :: _ => !isDigit c && !(c = '.') && !(c = 'e') && !(c = 'E')

theorem dropWhile_dropWhile (p : α → Bool) (l : List α) :
    List.dropWhile p (List.dropWhile p l) = List.dropWhile p l := by
  induction l with
  | nil => rfl
  | cons a l ih =>
    by_cases h : p a
    · simpa [List.dropWhile, h] using ih
    · simp [List.dropWhile, h]

theorem dropWhile_head_false (p : α → Bool) (l : List α) (a : α) (as : List α)
    (h : List.dropWhile p l = a :: as) : p a = false := by
  induction l with
  | nil => simp at h
  | cons b l ih =>
    by_cases hb : p b
    · exact ih (by simpa [List.dropWhile, hb] using h)
    · rw [List.dropWhile_cons_of_neg hb] at h
      cases h
      simpa using hb

theorem dropWhile_of_head_false (p : α → Bool) (a : α) (as : List α)
    (h : p a = false) : List.dropWhile p (a :: as) = a :: as := by
  simp [List.dropWhile, h]

theorem dropTrailWs_prefix (l : List Char) : dropTrailWs l <+: l := by
  refine ⟨(l.reverse.takeWhile pyWs).reverse, ?_⟩
  unfold dropTrailWs
  rw [← List.reverse_append, List.takeWhile_append_dropWhile, List.reverse_reverse]

theorem stripChars_idem (l : List Char) : stripChars (stripChars l) = stripChars l := by
  unfold stripChars
  set m := l.dropWhile pyWs with hm
  have hdw : (dropTrailWs m).dropWhile pyWs = dropTrailWs m := by
    rcases h : dropTrailWs m with _ | ⟨a, as⟩
    · rfl
    · have hpre := dropTrailWs_prefix m
      rw [h] at hpre
      rcases hpre with ⟨t, ht⟩
      have hma : ∃ ms, m = a :: ms := ⟨as ++ t, by rw [← ht]; simp⟩
      rcases hma with ⟨ms, hms⟩
      have hfa : pyWs a = false := by
        apply dropWhile_head_false pyWs l a ms
        rw [← hm, hms]
      exact dropWhile_of_head_false pyWs a as hfa
  rw [hdw]
  unfold dropTrailWs
  rw [List.reverse_reverse, dropWhile_dropWhile]

theorem pyStrip_idem (s : String) : pyStrip (pyStrip s) = pyStrip s := by
  unfold pyStrip
  exact congrArg String.mk (stripChars_idem s.data)

theorem insDescBy_perm (key : α → Nat) (x : α) (l : List α) :
    (insDescBy key x l).Perm (x :: l) := by
  induction l with
  | nil => rfl
  | cons y ys ih =>
    by_cases h : key x < key y
    · simp only [insDescBy, if_pos h]
      exact (ih.cons y).trans (List.Perm.swap x y ys)
    · simp [insDescBy, if_neg h]

theorem sortDescBy_perm (key : α → Nat) (l : List α) :
    (sortDescBy key l).Perm l := by
  induction l with
  | nil => rfl
  | cons x xs ih =>
    exact (insDescBy_perm key x (sortDescBy key xs)).trans (ih.cons x)

theorem insDescBy_pairwise (key : α → Nat) (x : α) (l : List α)
    (h : l.Pairwise (fun a b => key b ≤ key a)) :
    (insDescBy key x l).Pairwise (fun a b => key b ≤ key a) := by
  induction l with
  | nil => simp [insDescBy]
  | cons y ys ih =>
    rcases List.pairwise_cons.mp h with ⟨hy, hys⟩
    by_cases hxy : key x < key y
    · rw [insDescBy, if_pos hxy]
      refine List.pairwise_cons.mpr ⟨?_, ih hys⟩
      intro z hz
      have hz2 := (insDescBy_perm key x ys).mem_iff.mp hz
      rcases List.mem_cons.mp hz2 with rfl | hmem
      · exact Nat.le_of_lt hxy
      · exact hy z hmem
    · rw [insDescBy, if_neg hxy]
      refine List.pairwise_cons.mpr ⟨?_, h⟩
      intro z hz
      rcases List.mem_cons.mp hz with rfl | hmem
      · exact Nat.le_of_not_lt hxy
      · exact le_trans (hy z hmem) (Nat.le_of_not_lt hxy)

theorem sortDescBy_pairwise (key : α → Nat) (l : List α) :
    (sortDescBy key l).Pairwise (fun a b => key b ≤ key a) := by
  induction l with
  | nil => simp [sortDescBy]
  | cons x xs ih => exact insDescBy_pairwise key x (sortDescBy key xs) ih

theorem insDescBy_filter_key (key : α → Nat) (x : α) (l : List α) (c : Nat) :
    (insDescBy key x l).filter (fun z => key z = c) =
      if key x = c then x :: l.filter (fun z => key z = c)
      else l.filter (fun z => key z = c) := by
  induction l with
  | nil =>
    by_cases hx : key x = c <;> simp [insDescBy, List.filter, hx]
  | cons y ys ih =>
    by_cases hxy : key x < key y
    · rw [insDescBy, if_pos hxy]
      by_cases hx : key x = c
      · have hy : (key y = c) = False := by
          simp only [eq_iff_iff, iff_false]
          omega
        simp only [List.filter, decide_eq_true_eq] at *
        simp [hy, ih, hx]
      · simp only [List.filter, decide_eq_true_eq] at *
        by_cases hyc : key y = c <;> simp [hyc, ih, hx]
    · rw [insDescBy, if_neg hxy]
      by_cases hx : key x = c <;>
        simp [List.filter, hx]

theorem sortDescBy_filter_key (key : α → Nat) (l : List α) (c : Nat) :
    (sortDescBy key l).filter (fun z => key z = c) = l.filter (fun z => key z = c) := by
  induction l with
  | nil => rfl
  | cons x xs ih =>
    rw [sortDescBy, insDescBy_filter_key]
    by_cases hx : key x = c
    · simp [hx, ih, List.filter]
    · simp [hx, ih, List.filter]

theorem counterIncr_keys (c : Counter) (k : String) :
    (counterIncr c k).map Prod.fst =
      if k ∈ c.map Prod.fst then c.map Prod.fst else c.map Prod.fst ++ [k] := by
  induction c with
  | nil => simp [counterIncr]
  | cons kv t ih =>
    obtain ⟨k0, n⟩ := kv
    by_cases h : k0 = k
    · subst h
      simp [counterIncr]
    · have hne : ¬(k = k0) := fun hc => h hc.symm
      simp only [counterIncr, if_neg h, List.map_cons, List.mem_cons]
      rw [ih]
      by_cases hm : k ∈ t.map Prod.fst
      · simp [hm]
      · simp [hm, hne]

theorem counterIncr_nodup (c : Counter) (k : String)
    (h : (c.map Prod.fst).Nodup) : ((counterIncr c k).map Prod.fst).Nodup := by
  rw [counterIncr_keys]
  by_cases hm : k ∈ c.map Prod.fst
  · simpa [hm] using h
  · simpa [hm] using List.Nodup.append h (List.nodup_singleton k) (by simpa using hm)

theorem counterIncr_sum (c : Counter) (k : String) :
    sumCounts (counterIncr c k) = sumCounts c + 1 := by
  induction c with
  | nil => simp [counterIncr, sumCounts]
  | cons kv t ih =>
    obtain ⟨k0, n⟩ := kv
    by_cases h : k0 = k
    · subst h
      simp [counterIncr, sumCounts]
      omega
    · simp only [counterIncr, if_neg h, sumCounts, List.map_cons, List.sum_cons] at *
      omega

theorem counterAddAll_keys (c : Counter) (vs : List String) :
    (counterAddAll c vs).map Prod.fst =
      vs.foldl (fun acc v => if v ∈ acc then acc else acc ++ [v]) (c.map Prod.fst) := by
  induction vs generalizing c with
  | nil => rfl
  | cons v vs ih =>
    simp only [counterAddAll, List.foldl_cons] at *
    rw [ih (counterIncr c v), counterIncr_keys]

theorem counterAddAll_nodup (c : Counter) (vs : List String)
    (h : (c.map Prod.fst).Nodup) : ((counterAddAll c vs).map Prod.fst).Nodup := by
  induction vs generalizing c with
  | nil => exact h
  | cons v vs ih =>
    exact ih (counterIncr c v) (counterIncr_nodup c v h)

theorem counterAddAll_sum (c : Counter) (vs : List String) :
    sumCounts (counterAddAll c vs) = sumCounts c + vs.length := by
  induction vs generalizing c with
  | nil => rfl
  | cons v vs ih =>
    simp only [counterAddAll, List.foldl_cons, List.length_cons] at *
    rw [ih (counterIncr c v), counterIncr_sum]
    omega

theorem counterAddAll_append (c : Counter) (vs ws : List String) :
    counterAddAll c (vs ++ ws) = counterAddAll (counterAddAll c vs) ws := by
  simp [counterAddAll, List.foldl_append]

theorem foldl_dedup_mem (vs : List String) (acc : List String) (z : String)
    (h : z ∈ vs.foldl (fun acc v => if v ∈ acc then acc else acc ++ [v]) acc) :
    z ∈ acc ∨ z ∈ vs := by
  induction vs generalizing acc with
  | nil => exact Or.inl h
  | cons v vs ih =>
    simp only [List.foldl_cons] at h
    rcases ih _ h with hacc | hvs
    · by_cases hv : v ∈ acc
      · rw [if_pos hv] at hacc
        exact Or.inl hacc
      · rw [if_neg hv] at hacc
        rcases List.mem_append.mp hacc with h1 | h2
        · exact Or.inl h1
        · simp at h2
          subst h2
          exact Or.inr (List.mem_cons_self _ _)
    · exact Or.inr (List.mem_cons_of_mem v hvs)

theorem counterAddAll_mem_of_key (c : Counter) (vs : List String) (z : String)
    (h : z ∈ (counterAddAll c vs).map Prod.fst) : z ∈ c.map Prod.fst ∨ z ∈ vs := by
  rw [counterAddAll_keys] at h
  exact foldl_dedup_mem vs _ z h

theorem parsesAsObj_of_loads_none (s : String) (h : loads s = none) :
    parsesAsObj s = false := by
  simp [parsesAsObj, h]

theorem rowSingleObs_of_loads_none (f : String) (s : String) (h : loads s = none) :
    rowSingleObs f s = [] := by
  simp [rowSingleObs, h]

theorem rowMultiObs_of_loads_none (f : String) (s : String) (h : loads s = none) :
    rowMultiObs f s = [] := by
  simp [rowMultiObs, h]

theorem aggLoop_ok (rows : List String) : ∀ st st', aggLoop st rows = .ok st' →
    st'.total = st.total + (rows.filter parsesAsObj).length ∧
    st'.singles = st.singles.map
      (fun fc => (fc.1, counterAddAll fc.2 (observedSingle fc.1 rows))) ∧
    st'.multis = st.multis.map
      (fun fc => (fc.1, counterAddAll fc.2 (observedMulti fc.1 rows))) := by
  induction rows with
  | nil =>
    intro st st' h
    rw [aggLoop] at h
    cases h
    simp [observedSingle, observedMulti, counterAddAll]
  | cons s rest ih =>
    intro st st' h
    rw [aggLoop] at h
    cases hls : loads s with
    | none =>
      rw [hls] at h
      rcases ih st st' h with ⟨h1, h2, h3⟩
      refine ⟨?_, ?_, ?_⟩
      · rw [h1, List.filter_cons, parsesAsObj_of_loads_none s hls]
        simp
      · rw [h2]
        simp only [observedSingle, List.flatMap_cons, rowSingleObs_of_loads_none _ _ hls,
          List.nil_append]
      · rw [h3]
        simp only [observedMulti, List.flatMap_cons, rowMultiObs_of_loads_none _ _ hls,
          List.nil_append]
    | some j =>
      rw [hls] at h
      cases j with
      | obj p =>
        rcases ih (aggPayload st p) st' h with ⟨h1, h2, h3⟩
        have hobj : parsesAsObj s = true := by simp [parsesAsObj, hls]
        refine ⟨?_, ?_, ?_⟩
        · rw [h1, List.filter_cons, hobj]
          simp [aggPayload]
          omega
        · rw [h2]
          simp only [aggPayload, List.map_map]
          apply List.map_congr_left
          intro fc _
          simp only [Function.comp]
          rw [← counterAddAll_append]
          congr 1
          simp [observedSingle, rowSingleObs, hls]
        · rw [h3]
          simp only [aggPayload, List.map_map]
          apply List.map_congr_left
          intro fc _
          simp only [Function.comp]
          rw [← counterAddAll_append]
          congr 1
          simp [observedMulti, rowMultiObs, hls]
      | null => cases h
      | bool b => cases h
      | num n => cases h
      | str s2 => cases h
      | arr xs => cases h

theorem adminSummary_ok (rows : List String) (s : Summary)
    (h : adminSummary rows = .ok s) :
    s.total = (rows.filter parsesAsObj).length ∧
    s.single = single_fields.map
      (fun f => (f, counter_to_labels_values (counterAddAll [] (observedSingle f rows)))) ∧
    s.multi = multi_fields.map
      (fun f => (f, counter_to_labels_values (counterAddAll [] (observedMulti f rows)))) := by
  rw [adminSummary] at h
  cases hl : aggLoop initAgg rows with
  | error e => rw [hl] at h; cases h
  | ok st =>
    rw [hl] at h
    cases h
    rcases aggLoop_ok rows initAgg st hl with ⟨h1, h2, h3⟩
    refine ⟨by simpa [mkSummary, initAgg] using h1, ?_, ?_⟩
    · simp only [mkSummary, h2, initAgg, List.map_map]
      rfl
    · simp only [mkSummary, h3, initAgg, List.map_map]
      rfl

theorem aggLoop_filter_parses (rows : List String) : ∀ st,
    aggLoop st (rows.filter parses) = aggLoop st rows := by
  induction rows with
  | nil => intro st; rfl
  | cons s rest ih =>
    intro st
    cases hls : loads s with
    | none =>
      have hp : parses s = false := by simp [parses, hls]
      rw [List.filter_cons, hp]
      rw [aggLoop, hls]
      simpa using ih st
    | some j =>
      have hp : parses s = true := by simp [parses, hls]
      rw [List.filter_cons, hp]
      simp only [ite_true]
      rw [aggLoop, aggLoop, hls]
      cases j with
      | obj p => exact ih (aggPayload st p)
      | null => rfl
      | bool b => rfl
      | num n => rfl
      | str s2 => rfl
      | arr xs => rfl

theorem aggLoop_error_of_nonobj (rows : List String) : ∀ st,
    (∃ r ∈ rows, parsesAsNonObj r = true) →
    ∃ e, aggLoop st rows = .error e := by
  induction rows with
  | nil =>
    intro st h
    rcases h with ⟨r, hr, _⟩
    cases hr
  | cons s rest ih =>
    intro st h
    cases hls : loads s with
    | none =>
      rw [aggLoop, hls]
      apply ih st
      rcases h with ⟨r, hr, hno⟩
      rcases List.mem_cons.mp hr with rfl | hmem
      · exfalso
        rw [parsesAsNonObj, hls] at hno
        cases hno
      · exact ⟨r, hmem, hno⟩
    | some j =>
      cases j with
      | obj p =>
        rw [aggLoop, hls]
        apply ih (aggPayload st p)
        rcases h with ⟨r, hr, hno⟩
        rcases List.mem_cons.mp hr with rfl | hmem
        · exfalso
          rw [parsesAsNonObj, hls] at hno
          cases hno
        · exact ⟨r, hmem, hno⟩
      | null => exact ⟨"AttributeError", by rw [aggLoop, hls]⟩
      | bool b => exact ⟨"AttributeError", by rw [aggLoop, hls]⟩
      | num n => exact ⟨"AttributeError", by rw [aggLoop, hls]⟩
      | str s2 => exact ⟨"AttributeError", by rw [aggLoop, hls]⟩
      | arr xs => exact ⟨"AttributeError", by rw [aggLoop, hls]⟩

theorem observedSingle_length_le (f : String) (rows : List String) :
    (observedSingle f rows).length ≤ (rows.filter parsesAsObj).length := by
  induction rows with
  | nil => simp [observedSingle]
  | cons s rest ih =>
    rw [observedSingle, List.flatMap_cons, List.length_append, List.filter_cons]
    cases hls : loads s with
    | none =>
      rw [rowSingleObs_of_loads_none f s hls, parsesAsObj_of_loads_none s hls]
      simpa [observedSingle] using ih
    | some j =>
      cases j with
      | obj p =>
        have hobj : parsesAsObj s = true := by simp [parsesAsObj, hls]
        rw [hobj]
        have hone : (rowSingleObs f s).length ≤ 1 := by
          simp only [rowSingleObs, hls, obsSingle]
          cases hg : objGet p f with
          | none => simp
          | some v =>
            cases v with
            | str w => dsimp only; split <;> simp
            | null => simp
            | bool b => simp
            | num n => simp
            | arr xs => simp
            | obj fs => simp
        simp only [ite_true, List.length_cons]
        have := ih
        simp only [observedSingle] at this
        omega
      | null =>
        have : parsesAsObj s = false := by simp [parsesAsObj, hls]
        rw [this, rowSingleObs, hls]
        simpa [observedSingle] using ih
      | bool b =>
        have : parsesAsObj s = false := by simp [parsesAsObj, hls]
        rw [this, rowSingleObs, hls]
        simpa [observedSingle] using ih
      | num n =>
        have : parsesAsObj s = false := by simp [parsesAsObj, hls]
        rw [this, rowSingleObs, hls]
        simpa [observedSingle] using ih
      | str s2 =>
        have : parsesAsObj s = false := by simp [parsesAsObj, hls]
        rw [this, rowSingleObs, hls]
        simpa [observedSingle] using ih
      | arr xs =>
        have : parsesAsObj s = false := by simp [parsesAsObj, hls]
        rw [this, rowSingleObs, hls]
        simpa [observedSingle] using ih

theorem obsSingle_mem (f : String) (p : JsonObj) (v : String)
    (h : v ∈ obsSingle f p) : ∃ w, v = pyStrip w ∧ pyStrip w ≠ "" := by
  rw [obsSingle] at h
  cases hg : objGet p f with
  | none => rw [hg] at h; cases h
  | some u =>
    rw [hg] at h
    cases u with
    | str w =>
      dsimp only at h
      by_cases hw : pyStrip w ≠ ""
      · rw [if_pos hw] at h
        simp at h
        exact ⟨w, h, hw⟩
      · rw [if_neg hw] at h
        cases h
    | null => cases h
    | bool b => cases h
    | num n => cases h
    | arr xs => cases h
    | obj fs => cases h

theorem obsMultiItems_mem : ∀ (xs : JsonList) (v : String),
    v ∈ obsMultiItems xs → ∃ w, v = pyStrip w ∧ pyStrip w ≠ ""
  | .nil, v, h => absurd h (by rw [obsMultiItems]; simp)
  | .cons (.str w) tl, v, h => by
    rw [obsMultiItems] at h
    rcases List.mem_append.mp h with h1 | h2
    · by_cases hw : pyStrip w ≠ ""
      · rw [if_pos hw] at h1
        simp at h1
        exact ⟨w, h1, hw⟩
      · rw [if_neg hw] at h1
        cases h1
    · exact obsMultiItems_mem tl v h2
  | .cons .null tl, v, h => obsMultiItems_mem tl v h
  | .cons (.bool b) tl, v, h => obsMultiItems_mem tl v h
  | .cons (.num n) tl, v, h => obsMultiItems_mem tl v h
  | .cons (.arr ys) tl, v, h => obsMultiItems_mem tl v h
  | .cons (.obj fs) tl, v, h => obsMultiItems_mem tl v h

theorem obsMulti_mem (f : String) (p : JsonObj) (v : String)
    (h : v ∈ obsMulti f p) : ∃ w, v = pyStrip w ∧ pyStrip w ≠ "" := by
  rw [obsMulti] at h
  cases hg : objGet p f with
  | none => rw [hg] at h; cases h
  | some u =>
    rw [hg] at h
    cases u with
    | arr xs => exact obsMultiItems_mem xs v h
    | null => cases h
    | bool b => cases h
    | num n => cases h
    | str w => cases h
    | obj fs => cases h

theorem observedSingle_mem (f : String) (rows : List String) (v : String)
    (h : v ∈ observedSingle f rows) : ∃ w, v = pyStrip w ∧ pyStrip w ≠ "" := by
  rw [observedSingle] at h
  rcases List.mem_flatMap.mp h with ⟨r, _, hv⟩
  rw [rowSingleObs] at hv
  cases hls : loads r with
  | none => rw [hls] at hv; cases hv
  | some j =>
    rw [hls] at hv
    cases j with
    | obj p => exact obsSingle_mem f p v hv
    | null => cases hv
    | bool b => cases hv
    | num n => cases hv
    | str s2 => cases hv
    | arr xs => cases hv

theorem observedMulti_mem (f : String) (rows : List String) (v : String)
    (h : v ∈ observedMulti f rows) : ∃ w, v = pyStrip w ∧ pyStrip w ≠ "" := by
  rw [observedMulti] at h
  rcases List.mem_flatMap.mp h with ⟨r, _, hv⟩
  rw [rowMultiObs] at hv
  cases hls : loads r with
  | none => rw [hls] at hv; cases hv
  | some j =>
    rw [hls] at hv
    cases j with
    | obj p => exact obsMulti_mem f p v hv
    | null => cases hv
    | bool b => cases hv
    | num n => cases hv
    | str s2 => cases hv
    | arr xs => cases hv

theorem zip_map_fst_snd_self (l : List (α × β)) :
    (l.map Prod.fst).zip (l.map Prod.snd) = l := by
  induction l with
  | nil => rfl
  | cons x xs ih => simp [ih]

theorem ctl_length_eq (c : Counter) :
    (counter_to_labels_values c).labels.length = (counter_to_labels_values c).values.length := by
  simp [counter_to_labels_values]

theorem ctl_values_sorted (c : Counter) :
    (counter_to_labels_values c).values.Sorted (· ≥ ·) := by
  rw [counter_to_labels_values]
  exact (sortDescBy_pairwise Prod.snd c).map Prod.snd (fun a b hab => hab)

theorem ctl_zip_filter (c : Counter) (k : Nat) :
    ((counter_to_labels_values c).labels.zip (counter_to_labels_values c).values).filter
      (fun e => e.2 = k) = c.filter (fun e => e.2 = k) := by
  rw [counter_to_labels_values]
  simp only
  rw [zip_map_fst_snd_self]
  exact sortDescBy_filter_key Prod.snd c k

theorem ctl_labels_perm_keys (c : Counter) :
    (counter_to_labels_values c).labels.Perm (c.map Prod.fst) := by
  rw [counter_to_labels_values]
  exact (sortDescBy_perm Prod.snd c).map Prod.fst

theorem ctl_values_sum (c : Counter) :
    (counter_to_labels_values c).values.sum = sumCounts c := by
  rw [counter_to_labels_values, sumCounts]
  exact ((sortDescBy_perm Prod.snd c).map Prod.snd).sum_eq

theorem ctl_obs_wellformed (obs : List String)
    (hobs : ∀ v ∈ obs, ∃ w, v = pyStrip w ∧ pyStrip w ≠ "") :
    (counter_to_labels_values (counterAddAll [] obs)).labels.length =
      (counter_to_labels_values (counterAddAll [] obs)).values.length ∧
    (counter_to_labels_values (counterAddAll [] obs)).labels.Nodup ∧
    ∀ l ∈ (counter_to_labels_values (counterAddAll [] obs)).labels,
      l ≠ "" ∧ pyStrip l = l ∧ l ∈ obs := by
  refine ⟨ctl_length_eq _, ?_, ?_⟩
  · have hkeys : ((counterAddAll [] obs).map Prod.fst).Nodup :=
      counterAddAll_nodup [] obs (by simp)
    exact (ctl_labels_perm_keys (counterAddAll [] obs)).symm.nodup hkeys
  · intro l hl
    have hk : l ∈ (counterAddAll [] obs).map Prod.fst :=
      (ctl_labels_perm_keys (counterAddAll [] obs)).mem_iff.mp hl
    have hobsmem : l ∈ obs := by
      rcases counterAddAll_mem_of_key [] obs l hk with h0 | h1
      · cases h0
      · exact h1
    rcases hobs l hobsmem with ⟨w, rfl, hw⟩
    exact ⟨hw, pyStrip_idem w, hobsmem⟩

/-- Claim C1: the summary total counts exactly the stored payloads that parse
as JSON objects, and payloads that do not parse at all are invisible to the
whole aggregation (removing them changes neither the total nor any
histogram). -/
theorem C1_total_counts_object_payloads (rows : List String) :
    (∀ s : Summary, adminSummary rows = .ok s →
      s.total = (rows.filter parsesAsObj).length) ∧
    adminSummary (rows.filter parses) = adminSummary rows := by
  constructor
  · intro s h
    exact (adminSummary_ok rows s h).1
  · rw [adminSummary, adminSummary, aggLoop_filter_parses]

theorem C1_total_counts_object_payloads_witness :
    ∃ s : Summary, adminSummary ["notjson", dumps scenarioP2] = .ok s ∧
      s.total = (["notjson", dumps scenarioP2].filter parsesAsObj).length :=
  ⟨_, rfl, (C1_total_counts_object_payloads ["notjson", dumps scenarioP2]).1 _ rfl⟩

/-- Claim C3: for every single field, the histogram's counts sum to at most
the summary total — each object payload contributes at most one count per
single field. -/
theorem C3_single_sums_bounded (rows : List String) (s : Summary)
    (h : adminSummary rows = .ok s) :
    ∀ f hist, (f, hist) ∈ s.single → hist.values.sum ≤ s.total := by
  rcases adminSummary_ok rows s h with ⟨h1, h2, _⟩
  intro f hist hmem
  rw [h2] at hmem
  rcases List.mem_map.mp hmem with ⟨g, hg, heq⟩
  have hgf : g = f := congrArg Prod.fst heq
  have hhist : counter_to_labels_values (counterAddAll [] (observedSingle g rows)) = hist :=
    congrArg Prod.snd heq
  subst hgf
  rw [← hhist, ctl_values_sum, counterAddAll_sum]
  have hle := observedSingle_length_le g rows
  rw [h1]
  simp only [sumCounts, List.map_nil, List.sum_nil]
  omega

theorem C3_single_sums_bounded_witness :
    ∃ s : Summary, adminSummary [dumps scenarioP1, dumps scenarioP2] = .ok s ∧
      ∀ f hist, (f, hist) ∈ s.single → hist.values.sum ≤ s.total :=
  ⟨_, rfl, C3_single_sums_bounded [dumps scenarioP1, dumps scenarioP2] _ rfl⟩

/-- Claim C4: every histogram of the summary is well-formed: parallel arrays
of equal length, pairwise-distinct labels, and every label is a non-empty
whitespace-trimmed string observed in some payload (so no blank or
whitespace-only label ever appears). -/
theorem C4_histograms_wellformed (rows : List String) (s : Summary)
    (h : adminSummary rows = .ok s) :
    (∀ f hist, (f, hist) ∈ s.single →
      hist.labels.length = hist.values.length ∧ hist.labels.Nodup ∧
      ∀ l ∈ hist.labels, l ≠ "" ∧ pyStrip l = l ∧ l ∈ observedSingle f rows) ∧
    (∀ f hist, (f, hist) ∈ s.multi →
      hist.labels.length = hist.values.length ∧ hist.labels.Nodup ∧
      ∀ l ∈ hist.labels, l ≠ "" ∧ pyStrip l = l ∧ l ∈ observedMulti f rows) := by
  rcases adminSummary_ok rows s h with ⟨_, h2, h3⟩
  constructor
  · intro f hist hmem
    rw [h2] at hmem
    rcases List.mem_map.mp hmem with ⟨g, hg, heq⟩
    have hgf : g = f := congrArg Prod.fst heq
    have hhist : counter_to_labels_values (counterAddAll [] (observedSingle g rows)) = hist :=
      congrArg Prod.snd heq
    subst hgf
    rw [← hhist]
    exact ctl_obs_wellformed (observedSingle g rows) (observedSingle_mem g rows)
  · intro f hist hmem
    rw [h3] at hmem
    rcases List.mem_map.mp hmem with ⟨g, hg, heq⟩
    have hgf : g = f := congrArg Prod.fst heq
    have hhist : counter_to_labels_values (counterAddAll [] (observedMulti g rows)) = hist :=
      congrArg Prod.snd heq
    subst hgf
    rw [← hhist]
    exact ctl_obs_wellformed (observedMulti g rows) (observedMulti_mem g rows)

theorem C4_histograms_wellformed_witness :
    ∃ s : Summary, adminSummary [dumps scenarioP1, dumps scenarioP2] = .ok s ∧
      ∀ f hist, (f, hist) ∈ s.single →
        hist.labels.length = hist.values.length ∧ hist.labels.Nodup :=
  ⟨_, rfl, fun f hist hmem =>
    ⟨((C4_histograms_wellformed [dumps scenarioP1, dumps scenarioP2] _ rfl).1 f hist hmem).1,
     ((C4_histograms_wellformed [dumps scenarioP1, dumps scenarioP2] _ rfl).1 f hist hmem).2.1⟩⟩

/-- Claim C2: every histogram's counts are non-increasing, entries with equal
counts keep the counter's order, and the counter's key order is the order of
first observation of each distinct value across the whole scan. -/
theorem C2_histograms_sorted_stable (rows : List String) (s : Summary)
    (h : adminSummary rows = .ok s) :
    (∀ f hist, (f, hist) ∈ s.single →
      hist.values.Sorted (· ≥ ·) ∧
      (∀ k : Nat, (hist.labels.zip hist.values).filter (fun e => e.2 = k) =
        (counterAddAll [] (observedSingle f rows)).filter (fun e => e.2 = k)) ∧
      (counterAddAll [] (observedSingle f rows)).map Prod.fst =
        firstDedup (observedSingle f rows)) ∧
    (∀ f hist, (f, hist) ∈ s.multi →
      hist.values.Sorted (· ≥ ·) ∧
      (∀ k : Nat, (hist.labels.zip hist.values).filter (fun e => e.2 = k) =
        (counterAddAll [] (observedMulti f rows)).filter (fun e => e.2 = k)) ∧
      (counterAddAll [] (observedMulti f rows)).map Prod.fst =
        firstDedup (observedMulti f rows)) := by
  rcases adminSummary_ok rows s h with ⟨_, h2, h3⟩
  constructor
  · intro f hist hmem
    rw [h2] at hmem
    rcases List.mem_map.mp hmem with ⟨g, hg, heq⟩
    have hgf : g = f := congrArg Prod.fst heq
    have hhist : counter_to_labels_values (counterAddAll [] (observedSingle g rows)) = hist :=
      congrArg Prod.snd heq
    subst hgf
    rw [← hhist]
    refine ⟨ctl_values_sorted _, fun k => ctl_zip_filter _ k, ?_⟩
    rw [counterAddAll_keys]
    rfl
  · intro f hist hmem
    rw [h3] at hmem
    rcases List.mem_map.mp hmem with ⟨g, hg, heq⟩
    have hgf : g = f := congrArg Prod.fst heq
    have hhist : counter_to_labels_values (counterAddAll [] (observedMulti g rows)) = hist :=
      congrArg Prod.snd heq
    subst hgf
    rw [← hhist]
    refine ⟨ctl_values_sorted _, fun k => ctl_zip_filter _ k, ?_⟩
    rw [counterAddAll_keys]
    rfl

theorem C2_histograms_sorted_stable_witness :
    ∃ s : Summary, adminSummary [dumps scenarioP1, dumps scenarioP2] = .ok s ∧
      ∀ f hist, (f, hist) ∈ s.single → hist.values.Sorted (· ≥ ·) :=
  ⟨_, rfl, fun f hist hmem =>
    ((C2_histograms_sorted_stable [dumps scenarioP1, dumps scenarioP2] _ rfl).1
      f hist hmem).1⟩

/-- Claim C8: on the two scenario payloads the summary succeeds (the
single/multi type mismatch on `will_use` is ignored, not an error) with
total 2, `single.age` counting "18-24" twice and `multi.why_use` counting
"speed" and "cost" once each, in first-observed order. -/
theorem C8_scenario :
    ∃ s : Summary, adminSummary [dumps scenarioP1, dumps scenarioP2] = .ok s ∧
      s.total = 2 ∧
      s.single.lookup "age" = some ⟨["18-24"], [2]⟩ ∧
      s.multi.lookup "why_use" = some ⟨["speed", "cost"], [1, 1]⟩ :=
  ⟨_, rfl, rfl, rfl, rfl⟩

/-- Claim C10: a stored payload that parses as a JSON value other than an
object makes the whole summary request fail: the per-record tolerance covers
only `json.loads` failures, and `p.get` on a non-dict raises. -/
theorem C10_nonobject_payload_errors (rows : List String)
    (h : ∃ r ∈ rows, parsesAsNonObj r = true) :
    ∃ e, adminSummary rows = .error e := by
  rcases aggLoop_error_of_nonobj rows initAgg h with ⟨e, he⟩
  exact ⟨e, by rw [adminSummary, he]⟩

theorem C10_nonobject_payload_errors_witness :
    (∃ r ∈ ["[1, 2]"], parsesAsNonObj r = true) ∧
    ∃ e, adminSummary ["[1, 2]"] = .error e :=
  ⟨⟨"[1, 2]", List.mem_singleton.mpr rfl, rfl⟩,
   C10_nonobject_payload_errors ["[1, 2]"] ⟨"[1, 2]", List.mem_singleton.mpr rfl, rfl⟩⟩

/-- Claim C5: submit rejects a missing or non-object `payload` with a 400
validation error and leaves the store unchanged; an object payload is
JSON-encoded and appended, acknowledged with status "saved". -/
theorem C5_submit_validation (store : List Submission) (body : JsonObj) (now : Nat) :
    ((∀ p, objGet body "payload" ≠ some (.obj p)) →
      submitOp store body now = (store, .error ⟨400, "payload must be an object"⟩)) ∧
    (∀ p, objGet body "payload" = some (.obj p) →
      submitOp store body now =
        (store ++ [⟨nextId store, now, dumps (.obj p)⟩], .ok ⟨"saved"⟩)) := by
  constructor
  · intro hno
    rw [submitOp]
    cases hg : objGet body "payload" with
    | none => rfl
    | some j =>
      cases j with
      | obj p => exact absurd hg (hno p)
      | null => rfl
      | bool b => rfl
      | num n => rfl
      | str s2 => rfl
      | arr xs => rfl
  · intro p hp
    rw [submitOp, hp]

theorem C5_submit_validation_witness :
    submitOp [] (JsonObj.cons "payload" (Json.str "not an object") JsonObj.nil) 7 =
      ([], .error ⟨400, "payload must be an object"⟩) ∧
    submitOp [] (JsonObj.cons "payload" (Json.obj JsonObj.nil) JsonObj.nil) 7 =
      ([⟨1, 7, dumps (Json.obj JsonObj.nil)⟩], .ok ⟨"saved"⟩) :=
  ⟨(C5_submit_validation [] (JsonObj.cons "payload" (Json.str "not an object") JsonObj.nil) 7).1
      (by intro p h; simp [objGet] at h),
   (C5_submit_validation [] (JsonObj.cons "payload" (Json.obj JsonObj.nil) JsonObj.nil) 7).2
      JsonObj.nil (by simp [objGet])⟩

/-- Claim C6: the list endpoint returns min(n, 200) rows — never dropping a
row — newest first by id, with each returned row matching a stored submission
whose payload is decoded, or wrapped as a raw-string object when it does not
parse. -/
theorem C6_list_newest_first_no_drop (store : List Submission)
    (hids : store.Pairwise (fun a b => a.id < b.id)) :
    (adminList store).length = min store.length 200 ∧
    (store.length = 250 → (adminList store).length = 200) ∧
    ((adminList store).map ListRow.id).Pairwise (· > ·) ∧
    (∀ r ∈ adminList store, ∃ sub ∈ store,
      r.id = sub.id ∧ r.created_at = sub.created_at ∧
      ((loads sub.payload = some r.payload) ∨
       (loads sub.payload = none ∧
        r.payload = Json.obj (JsonObj.cons "raw" (Json.str sub.payload) JsonObj.nil)))) := by
  have hlen : (adminList store).length = min store.length 200 := by
    rw [adminList, List.length_map, listRecent, List.length_take,
      (sortDescBy_perm Submission.id store).length_eq]
    omega
  refine ⟨hlen, by intro h; rw [hlen, h]; omega, ?_, ?_⟩
  · have hmap : (adminList store).map ListRow.id =
        ((sortDescBy Submission.id store).take 200).map Submission.id := by
      rw [adminList, listRecent, List.map_map]
      rfl
    rw [hmap, List.map_take]
    have hnd : ((sortDescBy Submission.id store).map Submission.id).Nodup := by
      have hstore : (store.map Submission.id).Pairwise (· < ·) :=
        hids.map Submission.id (fun a b hab => hab)
      have hstorend : (store.map Submission.id).Nodup :=
        hstore.imp Nat.ne_of_lt
      exact (((sortDescBy_perm Submission.id store).map Submission.id).symm).nodup hstorend
    have hsorted : ((sortDescBy Submission.id store).map Submission.id).Pairwise (· ≥ ·) :=
      (sortDescBy_pairwise Submission.id store).map Submission.id (fun a b hab => hab)
    have hgt : ((sortDescBy Submission.id store).map Submission.id).Pairwise (· > ·) :=
      (hsorted.and hnd).imp (fun hab => Nat.lt_of_le_of_ne hab.1.le (fun h => hab.2 h.symm))
    exact List.Pairwise.sublist (List.take_sublist 200 _) hgt
  · intro r hr
    rcases List.mem_map.mp hr with ⟨sub, hsub, heq⟩
    have hsubmem : sub ∈ store := by
      have h1 : sub ∈ sortDescBy Submission.id store :=
        List.mem_of_mem_take hsub
      exact (sortDescBy_perm Submission.id store).mem_iff.mp h1
    refine ⟨sub, hsubmem, ?_, ?_, ?_⟩
    · rw [← heq]
    · rw [← heq]
    · rw [← heq]
      cases hls : loads sub.payload with
      | some j => exact Or.inl (by simp [rowJson, hls])
      | none => exact Or.inr ⟨rfl, by simp [rowJson, hls]⟩

theorem C6_list_newest_first_no_drop_witness :
    ([⟨1, 0, "notjson"⟩, ⟨2, 5, "-7"⟩] : List Submission).Pairwise
      (fun a b => a.id < b.id) ∧
    (adminList [⟨1, 0, "notjson"⟩, ⟨2, 5, "-7"⟩]).length =
      min ([⟨1, 0, "notjson"⟩, ⟨2, 5, "-7"⟩] : List Submission).length 200 ∧
    ((adminList [⟨1, 0, "notjson"⟩, ⟨2, 5, "-7"⟩]).map ListRow.id).Pairwise (· > ·) :=
  ⟨by decide,
   (C6_list_newest_first_no_drop [⟨1, 0, "notjson"⟩, ⟨2, 5, "-7"⟩] (by decide)).1,
   (C6_list_newest_first_no_drop [⟨1, 0, "notjson"⟩, ⟨2, 5, "-7"⟩] (by decide)).2.2.1⟩

/-- Claim C9: in the auth revision (modelled from the spec), list and summary
demand a `password` body field equal to the shared secret; with no secret
configured every call fails closed with a 500 "not configured" error (never
401), and with a configured secret a mismatching or missing password yields
401; a matching password lets the operation through. -/
theorem C9_auth_gate (secret : String) (body : JsonObj) (rows : List String)
    (store : List Submission) :
    (secret = "" →
      authAdminSummary secret body rows = .error ⟨500, "admin password not configured"⟩ ∧
      authAdminList secret body store = .error ⟨500, "admin password not configured"⟩) ∧
    (secret ≠ "" → ∀ pw, objGet body "password" = some (.str pw) → pw ≠ secret →
      authAdminSummary secret body rows = .error ⟨401, "unauthorized"⟩ ∧
      authAdminList secret body store = .error ⟨401, "unauthorized"⟩) ∧
    (secret ≠ "" → ∀ pw, objGet body "password" = some (.str pw) → pw = secret →
      authAdminList secret body store = .ok (adminList store) ∧
      ∀ s, adminSummary rows = .ok s → authAdminSummary secret body rows = .ok s) := by
  refine ⟨?_, ?_, ?_⟩
  · intro hs
    rw [authAdminSummary, authAdminList, checkAuth, if_pos hs]
    exact ⟨rfl, rfl⟩
  · intro hs pw hpw hne
    rw [authAdminSummary, authAdminList, checkAuth, if_neg hs, hpw]
    simp only [if_neg hne]
    exact ⟨trivial, trivial⟩
  · intro hs pw hpw heq
    rw [authAdminSummary, authAdminList, checkAuth, if_neg hs, hpw]
    simp only [if_pos heq]
    refine ⟨trivial, ?_⟩
    intro s hsum
    rw [hsum]

theorem C9_auth_gate_witness :
    ("" = "" → authAdminSummary "" JsonObj.nil [] =
      .error ⟨500, "admin password not configured"⟩) ∧
    ("hunter2" ≠ "" →
      objGet (JsonObj.cons "password" (Json.str "guess") JsonObj.nil) "password" =
        some (.str "guess") →
      "guess" ≠ "hunter2" →
      authAdminSummary "hunter2" (JsonObj.cons "password" (Json.str "guess") JsonObj.nil) [] =
        .error ⟨401, "unauthorized"⟩) :=
  ⟨fun hs => ((C9_auth_gate "" JsonObj.nil [] []).1 hs).1,
   fun hs hpw hne =>
     ((C9_auth_gate "hunter2" (JsonObj.cons "password" (Json.str "guess") JsonObj.nil)
        [] []).2.1 hs "guess" hpw hne).1⟩

theorem char_ne_of_toNat_ne (c c' : Char) (h : c.toNat ≠ c'.toNat) : c ≠ c' :=
  fun he => h (congrArg Char.toNat he)

theorem digitChar_toNat (d : Nat) (h : d < 10) : (digitChar d).toNat = 48 + d := by
  interval_cases d <;> rfl

theorem hexDigitChar_hexVal (d : Nat) (h : d < 16) : hexVal (hexDigitChar d) = some d := by
  interval_cases d <;> rfl

theorem digit_char_facts (c : Char) (h1 : 48 ≤ c.toNat) (h2 : c.toNat ≤ 57) :
    jsonWs c = false ∧ isDigit c = true ∧ c ≠ ']' ∧ c ≠ '-' ∧ c ≠ 'n' ∧ c ≠ 't' ∧
    c ≠ 'f' ∧ c ≠ qchar ∧ c ≠ '[' ∧ c ≠ lbrace := by
  refine ⟨?_, ?_, ?_, ?_, ?_, ?_, ?_, ?_, ?_, ?_⟩
  · simp only [jsonWs, Bool.or_eq_false_iff, decide_eq_false_iff_not]
    refine ⟨⟨⟨?_, ?_⟩, ?_⟩, ?_⟩ <;>
      (intro he; rw [he] at h1 h2;
       first
       | exact absurd h1 (by decide)
       | exact absurd h2 (by decide))
  · simp only [isDigit, Bool.and_eq_true, decide_eq_true_eq]
    omega
  all_goals
    (intro he; rw [he] at h1 h2;
     first
     | exact absurd h1 (by decide)
     | exact absurd h2 (by decide))

theorem natDigits_lt10 : ∀ (f n : Nat), n < f → ∀ d ∈ natDigits f n, d < 10 := by
  intro f
  induction f with
  | zero => intro n h; omega
  | succ f ih =>
    intro n hn d hd
    rw [natDigits] at hd
    by_cases h10 : n < 10
    · rw [if_pos h10] at hd
      simp at hd
      omega
    · rw [if_neg h10] at hd
      rcases List.mem_append.mp hd with h1 | h2
      · have hdivlt : n / 10 < n := Nat.div_lt_self (by omega) (by omega)
        exact ih (n / 10) (by omega) d h1
      · simp at h2
        subst h2
        exact Nat.mod_lt n (by omega)

theorem natDigits_ne_nil (f n : Nat) (h : n < f) : natDigits f n ≠ [] := by
  cases f with
  | zero => omega
  | succ f =>
    rw [natDigits]
    by_cases h10 : n < 10
    · simp [if_pos h10]
    · simp [if_neg h10]

theorem natDigits_head_pos : ∀ (f n : Nat), n < f → 0 < n →
    ∀ d ds, natDigits f n = d :: ds → 0 < d := by
  intro f
  induction f with
  | zero => intro n h; omega
  | succ f ih =>
    intro n hn hpos d ds heq
    rw [natDigits] at heq
    by_cases h10 : n < 10
    · rw [if_pos h10] at heq
      cases heq
      omega
    · rw [if_neg h10] at heq
      have hdivlt : n / 10 < n := Nat.div_lt_self (by omega) (by omega)
      have hdivpos : 0 < n / 10 := Nat.div_pos (by omega) (by omega)
      rcases hrec : natDigits f (n / 10) with _ | ⟨e, es⟩
      · exact absurd hrec (natDigits_ne_nil f (n / 10) (by omega))
      · rw [hrec, List.cons_append] at heq
        injection heq with h1 h2
        subst h1
        exact ih (n / 10) (by omega) hdivpos _ es hrec

theorem valOfDigits_append_single (ds : List Nat) (d : Nat) :
    valOfDigits (ds ++ [d]) = 10 * valOfDigits ds + d := by
  rw [valOfDigits, valOfDigits, List.foldl_append]
  rfl

theorem natDigits_val : ∀ (f n : Nat), n < f → valOfDigits (natDigits f n) = n := by
  intro f
  induction f with
  | zero => intro n h; omega
  | succ f ih =>
    intro n hn
    rw [natDigits]
    by_cases h10 : n < 10
    · rw [if_pos h10]
      simp [valOfDigits]
    · rw [if_neg h10, valOfDigits_append_single]
      have hdivlt : n / 10 < n := Nat.div_lt_self (by omega) (by omega)
      rw [ih (n / 10) (by omega)]
      omega

theorem restOk_head_not_digit (c : Char) (rest : List Char)
    (h : restOk (c :: rest) = true) : isDigit c = false := by
  rw [restOk] at h
  simp only [Bool.and_eq_true, Bool.not_eq_true'] at h
  exact h.1.1.1

theorem takeDigits_map (ds : List Nat) (rest : List Char)
    (hds : ∀ d ∈ ds, d < 10) (hrest : restOk rest = true) :
    takeDigits (ds.map digitChar ++ rest) = (ds, rest) := by
  induction ds with
  | nil =>
    simp only [List.map_nil, List.nil_append]
    cases rest with
    | nil => rfl
    | cons c cs =>
      rw [takeDigits, restOk_head_not_digit c cs hrest]
      simp
  | cons d ds ih =>
    have hd : d < 10 := hds d (List.mem_cons_self d ds)
    have hdig : isDigit (digitChar d) = true := by
      simp only [isDigit, digitChar_toNat d hd, Bool.and_eq_true, decide_eq_true_eq]
      omega
    simp only [List.map_cons, List.cons_append]
    rw [takeDigits, hdig]
    simp only [ite_true]
    rw [ih (fun e he => hds e (List.mem_cons_of_mem d he))]
    rw [digitChar_toNat d hd]
    simp

theorem floatGuard_restOk (n : Nat) (rest : List Char) (hrest : restOk rest = true) :
    floatGuard n rest = some (n, rest) := by
  cases rest with
  | nil => rfl
  | cons c cs =>
    rw [restOk] at hrest
    simp only [Bool.and_eq_true, Bool.not_eq_true'] at hrest
    rw [floatGuard]
    have h1 : decide (c = '.') = false := hrest.1.1.2
    have h2 : decide (c = 'e') = false := hrest.1.2
    have h3 : decide (c = 'E') = false := hrest.2
    simp [h1, h2, h3]

theorem parseNatNum_round (n : Nat) (rest : List Char) (hrest : restOk rest = true) :
    parseNatNum (natToChars n ++ rest) = some (n, rest) := by
  rcases hnd : natDigits (n + 1) n with _ | ⟨d, ds⟩
  · exact absurd hnd (natDigits_ne_nil (n + 1) n (by omega))
  · have hd10 : d < 10 :=
      natDigits_lt10 (n + 1) n (by omega) d (by rw [hnd]; exact List.mem_cons_self d ds)
    have hds10 : ∀ e ∈ ds, e < 10 := fun e he =>
      natDigits_lt10 (n + 1) n (by omega) e (by rw [hnd]; exact List.mem_cons_of_mem d he)
    rw [natToChars, hnd, List.map_cons, List.cons_append, parseNatNum]
    by_cases hzero : n = 0
    · subst hzero
      have hnd' : ([0] : List Nat) = d :: ds := hnd
      injection hnd' with h1 h2
      subst h1
      subst h2
      rw [if_pos (show digitChar 0 = '0' from rfl)]
      simp only [List.map_nil, List.nil_append]
      exact floatGuard_restOk 0 rest hrest
    · have hdpos : 0 < d := natDigits_head_pos (n + 1) n (by omega) (by omega) d ds hnd
      have hne0 : digitChar d ≠ '0' := by
        apply char_ne_of_toNat_ne
        rw [digitChar_toNat d hd10, show ('0').toNat = 48 from rfl]
        omega
      rw [if_neg hne0]
      have hdig : isDigit (digitChar d) = true := by
        simp only [isDigit, digitChar_toNat d hd10, Bool.and_eq_true, decide_eq_true_eq]
        omega
      rw [hdig]
      simp only [ite_true]
      rw [takeDigits_map ds rest hds10 hrest]
      have hval : valOfDigits (((digitChar d).toNat - 48) :: ds) = n := by
        rw [digitChar_toNat d hd10]
        have : 48 + d - 48 = d := by omega
        rw [this, ← natDigits_val (n + 1) n (by omega), hnd]
      rw [hval]
      exact floatGuard_restOk n rest hrest

theorem natToChars_head (n : Nat) :
    ∃ c cs, natToChars n = c :: cs ∧ 48 ≤ c.toNat ∧ c.toNat ≤ 57 := by
  rcases hnd : natDigits (n + 1) n with _ | ⟨d, ds⟩
  · exact absurd hnd (natDigits_ne_nil (n + 1) n (by omega))
  · have hd10 : d < 10 :=
      natDigits_lt10 (n + 1) n (by omega) d (by rw [hnd]; exact List.mem_cons_self d ds)
    refine ⟨digitChar d, ds.map digitChar, ?_, ?_, ?_⟩
    · rw [natToChars, hnd, List.map_cons]
    · rw [digitChar_toNat d hd10]; omega
    · rw [digitChar_toNat d hd10]; omega

theorem parseNum_round (n : Int) (rest : List Char) (hrest : restOk rest = true) :
    parseNum (intChars n ++ rest) = some (n, rest) := by
  by_cases hneg : n < 0
  · rw [intChars, if_pos hneg, List.cons_append, parseNum]
    rw [if_pos rfl]
    rw [parseNatNum_round (-n).toNat rest hrest]
    have htn : (((-n).toNat : Int)) = -n := Int.toNat_of_nonneg (by omega)
    dsimp only
    rw [htn]
    simp
  · rcases natToChars_head n.toNat with ⟨c, cs, hc, h48, h57⟩
    rw [intChars, if_neg hneg, hc, List.cons_append, parseNum]
    have hcm : c ≠ '-' := by
      apply char_ne_of_toNat_ne
      rw [show ('-').toNat = 45 from rfl]
      omega
    rw [if_neg hcm]
    have hre : c :: (cs ++ rest) = natToChars n.toNat ++ rest := by
      rw [hc, List.cons_append]
    rw [hre, parseNatNum_round n.toNat rest hrest]
    have htn : ((n.toNat : Int)) = n := Int.toNat_of_nonneg (by omega)
    dsimp only
    rw [htn]

theorem psb_close (rest : List Char) : parseStrBody (qchar :: rest) = some ([], rest) := by
  rw [parseStrBody.eq_def]
  simp

theorem psb_esc (e d : Char) (cs2 : List Char) (he : escDecode e = some d)
    (hu : ¬ e = 'u') : parseStrBody (bslash :: e :: cs2) =
      mapPair (fun o => d :: o) (parseStrBody cs2) := by
  rw [parseStrBody.eq_def]
  simp [qchar, bslash, if_neg hu, he]

theorem psb_u (a b x y : Char) (va vb vx vy : Nat) (cs3 : List Char)
    (ha : hexVal a = some va) (hb : hexVal b = some vb)
    (hx : hexVal x = some vx) (hy : hexVal y = some vy)
    (hvalid : validCode (4096 * va + 256 * vb + 16 * vx + vy) = true) :
    parseStrBody (bslash :: 'u' :: a :: b :: x :: y :: cs3) =
      mapPair (fun o => Char.ofNat (4096 * va + 256 * vb + 16 * vx + vy) :: o)
        (parseStrBody cs3) := by
  rw [parseStrBody.eq_def]
  simp [qchar, bslash, ha, hb, hx, hy, hvalid]

theorem psb_lit (c : Char) (h1 : ¬ c = qchar) (h2 : ¬ c = bslash)
    (h3 : ¬ c.toNat < 32) (cs : List Char) :
    parseStrBody (c :: cs) = mapPair (fun o => c :: o) (parseStrBody cs) := by
  rw [parseStrBody.eq_def]
  simp only [if_neg h1, if_neg h2, if_neg h3]

theorem parseStrBody_round : ∀ (cs rest : List Char),
    parseStrBody (escapeList cs ++ qchar :: rest) = some (cs, rest) := by
  intro cs
  induction cs with
  | nil =>
    intro rest
    exact psb_close rest
  | cons c cs ih =>
    intro rest
    have hsplit : escapeList (c :: cs) ++ qchar :: rest =
        escapeChar c ++ (escapeList cs ++ qchar :: rest) := by
      simp [escapeList]
    rw [hsplit]
    by_cases hq : c = qchar
    · subst hq
      rw [escapeChar, if_pos rfl, List.cons_append, List.cons_append, List.nil_append]
      rw [psb_esc qchar qchar _ (by rw [escDecode, if_pos rfl]) (by decide), ih rest]
      rfl
    · by_cases hb : c = bslash
      · subst hb
        rw [escapeChar, if_neg (by decide), if_pos rfl, List.cons_append, List.cons_append,
          List.nil_append]
        rw [psb_esc bslash bslash _ (by rw [escDecode, if_neg (by decide), if_pos rfl])
          (by decide), ih rest]
        rfl
      · by_cases h08 : c = '\x08'
        · subst h08
          rw [escapeChar]
          rw [if_neg (by decide), if_neg (by decide), if_pos rfl, List.cons_append,
            List.cons_append, List.nil_append]
          rw [psb_esc 'b' '\x08' _ (by decide) (by decide), ih rest]
          rfl
        · by_cases h0c : c = '\x0c'
          · subst h0c
            rw [escapeChar]
            rw [if_neg (by decide), if_neg (by decide), if_neg (by decide), if_pos rfl,
              List.cons_append, List.cons_append, List.nil_append]
            rw [psb_esc 'f' '\x0c' _ (by decide) (by decide), ih rest]
            rfl
          · by_cases h0a : c = '\n'
            · subst h0a
              rw [escapeChar]
              rw [if_neg (by decide), if_neg (by decide), if_neg (by decide),
                if_neg (by decide), if_pos rfl, List.cons_append, List.cons_append,
                List.nil_append]
              rw [psb_esc 'n' '\n' _ (by decide) (by decide), ih rest]
              rfl
            · by_cases h0d : c = '\r'
              · subst h0d
                rw [escapeChar]
                rw [if_neg (by decide), if_neg (by decide), if_neg (by decide),
                  if_neg (by decide), if_neg (by decide), if_pos rfl, List.cons_append,
                  List.cons_append, List.nil_append]
                rw [psb_esc 'r' '\r' _ (by decide) (by decide), ih rest]
                rfl
              · by_cases h09 : c = '\t'
                · subst h09
                  rw [escapeChar]
                  rw [if_neg (by decide), if_neg (by decide), if_neg (by decide),
                    if_neg (by decide), if_neg (by decide), if_neg (by decide), if_pos rfl,
                    List.cons_append, List.cons_append, List.nil_append]
                  rw [psb_esc 't' '\t' _ (by decide) (by decide), ih rest]
                  rfl
                · by_cases hctl : c.toNat < 32
                  · rw [escapeChar, if_neg hq, if_neg hb, if_neg h08, if_neg h0c,
                      if_neg h0a, if_neg h0d, if_neg h09, if_pos hctl]
                    simp only [List.cons_append, List.nil_append]
                    have hdivlt : c.toNat / 16 < 16 := by omega
                    have hmodlt : c.toNat % 16 < 16 := by omega
                    rw [psb_u '0' '0' (hexDigitChar (c.toNat / 16)) (hexDigitChar (c.toNat % 16))
                      0 0 (c.toNat / 16) (c.toNat % 16) _ (by decide) (by decide)
                      (hexDigitChar_hexVal _ hdivlt) (hexDigitChar_hexVal _ hmodlt) ?_]
                    · have harith : 4096 * 0 + 256 * 0 + 16 * (c.toNat / 16) + c.toNat % 16 =
                          c.toNat := by omega
                      rw [harith, Char.ofNat_toNat, ih rest]
                      rfl
                    · have harith : 4096 * 0 + 256 * 0 + 16 * (c.toNat / 16) + c.toNat % 16 =
                          c.toNat := by omega
                      rw [harith, validCode]
                      simp only [Bool.or_eq_true, decide_eq_true_eq]
                      omega
                  · rw [escapeChar, if_neg hq, if_neg hb, if_neg h08, if_neg h0c,
                      if_neg h0a, if_neg h0d, if_neg h09, if_neg hctl]
                    simp only [List.cons_append, List.nil_append]
                    rw [psb_lit c hq hb hctl, ih rest]
                    rfl

theorem objConcat_nil : ∀ o : JsonObj, objConcat o .nil = o
  | .nil => rfl
  | .cons k v t => by rw [objConcat, objConcat_nil t]

theorem objHasKey_concat : ∀ (a b : JsonObj) (k : String),
    objHasKey (objConcat a b) k = (objHasKey a k || objHasKey b k)
  | .nil, b, k => by rw [objConcat, objHasKey]; simp
  | .cons k0 v0 t, b, k => by
    rw [objConcat, objHasKey, objHasKey, objHasKey_concat t b k]
    simp [Bool.or_assoc]

theorem objInsert_fresh : ∀ (o : JsonObj) (k : String) (v : Json),
    objHasKey o k = false → objInsert o k v = objConcat o (.cons k v .nil)
  | .nil, k, v, _ => rfl
  | .cons k0 v0 t, k, v, h => by
    rw [objHasKey] at h
    simp only [Bool.or_eq_false_iff, decide_eq_false_iff_not] at h
    rw [objInsert, if_neg h.1, objConcat, objInsert_fresh t k v h.2]

theorem objConcat_assoc : ∀ (a b c : JsonObj),
    objConcat (objConcat a b) c = objConcat a (objConcat b c)
  | .nil, b, c => rfl
  | .cons k v t, b, c => by
    rw [objConcat, objConcat, objConcat, objConcat_assoc t b c]

theorem foldl_objInsert_concat : ∀ (fs o : JsonObj),
    safeO fs = true → (∀ k, objHasKey fs k = true → objHasKey o k = false) →
    List.foldl (fun o kv => objInsert o kv.1 kv.2) o (pairsOf fs) = objConcat o fs
  | .nil, o, _, _ => by rw [pairsOf, List.foldl_nil, objConcat_nil]
  | .cons k v t, o, hsafe, hdisj => by
    rw [safeO] at hsafe
    simp only [Bool.and_eq_true, Bool.not_eq_true'] at hsafe
    rw [pairsOf, List.foldl_cons]
    have hko : objHasKey o k = false :=
      hdisj k (by rw [objHasKey]; simp)
    rw [objInsert_fresh o k v hko]
    rw [foldl_objInsert_concat t (objConcat o (.cons k v .nil)) hsafe.2 ?_]
    · rw [objConcat_assoc]
      rfl
    · intro k2 hk2
      rw [objHasKey_concat]
      have hk2o : objHasKey o k2 = false :=
        hdisj k2 (by rw [objHasKey, hk2]; simp)
      have hk2ne : (k = k2) = False := by
        simp only [eq_iff_iff, iff_false]
        intro he
        rw [he] at hsafe
        rw [hsafe.1.1] at hk2
        cases hk2
      rw [hk2o, objHasKey, objHasKey]
      simp [hk2ne]

theorem objOfPairs_pairsOf (fs : JsonObj) (h : safeO fs = true) :
    objOfPairs (pairsOf fs) = fs := by
  rw [objOfPairs, foldl_objInsert_concat fs .nil h (fun k _ => rfl)]
  rfl

theorem skipWs_not_ws (c : Char) (cs : List Char) (h : jsonWs c = false) :
    skipWs (c :: cs) = c :: cs := by
  rw [skipWs, h]
  simp

theorem skipWs_sp (cs : List Char) : skipWs (' ' :: cs) = skipWs cs := by
  rw [skipWs]
  simp [jsonWs]

theorem dumpsV_head (j : Json) :
    ∃ c cs, dumpsV j = c :: cs ∧ jsonWs c = false ∧ c ≠ ']' := by
  cases j with
  | null => exact ⟨'n', _, rfl, by decide, by decide⟩
  | bool b =>
    cases b with
    | true => exact ⟨'t', _, rfl, by decide, by decide⟩
    | false => exact ⟨'f', _, rfl, by decide, by decide⟩
  | num n =>
    rw [dumpsV]
    by_cases hneg : n < 0
    · rw [intChars, if_pos hneg]
      exact ⟨'-', _, rfl, by decide, by decide⟩
    · rw [intChars, if_neg hneg]
      rcases natToChars_head n.toNat with ⟨c, cs, hc, h48, h57⟩
      rcases digit_char_facts c h48 h57 with ⟨hws, _, hbr, _⟩
      exact ⟨c, cs, hc, hws, hbr⟩
  | str s => exact ⟨qchar, _, rfl, by decide, by decide⟩
  | arr xs =>
    cases xs with
    | nil => exact ⟨'[', _, rfl, by decide, by decide⟩
    | cons h t => exact ⟨'[', _, rfl, by decide, by decide⟩
  | obj fs =>
    cases fs with
    | nil => exact ⟨lbrace, _, rfl, by decide, by decide⟩
    | cons k v t => exact ⟨lbrace, _, rfl, by decide, by decide⟩

theorem skipWs_dumpsV (j : Json) (r : List Char) :
    skipWs (dumpsV j ++ r) = dumpsV j ++ r := by
  rcases dumpsV_head j with ⟨c, cs, hc, hws, _⟩
  rw [hc, List.cons_append, skipWs_not_ws c _ hws]

theorem strChars_length_pos (s : String) : 1 ≤ (strChars s).length := by
  rw [strChars]
  simp

theorem intChars_length_pos (n : Int) : 1 ≤ (intChars n).length := by
  rw [intChars]
  by_cases hneg : n < 0
  · rw [if_pos hneg]
    simp
  · rw [if_neg hneg]
    rcases natToChars_head n.toNat with ⟨c, cs, hc, _, _⟩
    rw [hc]
    simp

mutual

theorem weightV_le : ∀ j : Json, weightV j ≤ 2 * (dumpsV j).length
  | .null => by decide
  | .bool true => by decide
  | .bool false => by decide
  | .num n => by
    have := intChars_length_pos n
    rw [weightV, dumpsV]
    omega
  | .str s => by
    have := strChars_length_pos s
    rw [weightV, dumpsV]
    omega
  | .arr .nil => by decide
  | .arr (.cons h t) => by
    have h1 := weightL_le (JsonList.cons h t)
    rw [weightV, dumpsV]
    simp only [List.length_cons, List.length_append]
    omega
  | .obj .nil => by decide
  | .obj (.cons k v t) => by
    have h1 := weightO_le (JsonObj.cons k v t)
    rw [weightV, dumpsV]
    simp only [List.length_cons, List.length_append]
    omega

theorem weightL_le : ∀ xs : JsonList, weightL xs ≤ 2 * (dumpsItems xs).length + 1
  | .nil => by decide
  | .cons h .nil => by
    have hv := weightV_le h
    rw [weightL, weightL, dumpsItems]
    omega
  | .cons h (.cons h2 t) => by
    have hv := weightV_le h
    have hl := weightL_le (JsonList.cons h2 t)
    rw [weightL, dumpsItems]
    simp only [List.length_cons, List.length_append]
    omega

theorem weightO_le : ∀ fs : JsonObj, weightO fs ≤ 2 * (dumpsFields fs).length + 1
  | .nil => by decide
  | .cons k v .nil => by
    have hv := weightV_le v
    have hs := strChars_length_pos k
    rw [weightO, weightO, dumpsFields]
    simp only [List.length_cons, List.length_append]
    omega
  | .cons k v (.cons k2 v2 t) => by
    have hv := weightV_le v
    have ho := weightO_le (JsonObj.cons k2 v2 t)
    rw [weightO, dumpsFields]
    simp only [List.length_cons, List.length_append]
    omega

end

theorem rtV_null (f : Nat) (rest : List Char) :
    parseValue (f + 1) (dumpsV .null ++ rest) = some (.null, rest) := by
  show parseValue (f + 1) ('n' :: 'u' :: 'l' :: 'l' :: rest) = some (.null, rest)
  rw [parseValue.eq_def]
  simp

theorem rtV_true (f : Nat) (rest : List Char) :
    parseValue (f + 1) (dumpsV (.bool true) ++ rest) = some (.bool true, rest) := by
  show parseValue (f + 1) ('t' :: 'r' :: 'u' :: 'e' :: rest) = some (.bool true, rest)
  rw [parseValue.eq_def]
  simp

theorem rtV_false (f : Nat) (rest : List Char) :
    parseValue (f + 1) (dumpsV (.bool false) ++ rest) = some (.bool false, rest) := by
  show parseValue (f + 1) ('f' :: 'a' :: 'l' :: 's' :: 'e' :: rest) = some (.bool false, rest)
  rw [parseValue.eq_def]
  simp

theorem rtV_arrnil (f : Nat) (rest : List Char) :
    parseValue (f + 1) (dumpsV (.arr .nil) ++ rest) = some (.arr .nil, rest) := by
  show parseValue (f + 1) ('[' :: ']' :: rest) = some (.arr .nil, rest)
  rw [parseValue.eq_def]
  simp [skipWs, jsonWs, qchar]

theorem rtV_objnil (f : Nat) (rest : List Char) :
    parseValue (f + 1) (dumpsV (.obj .nil) ++ rest) = some (.obj .nil, rest) := by
  show parseValue (f + 1) (lbrace :: rbrace :: rest) = some (.obj .nil, rest)
  rw [parseValue.eq_def]
  simp [skipWs, jsonWs, lbrace, rbrace, qchar]

theorem rtV_str (f : Nat) (rest : List Char) (s : String) :
    parseValue (f + 1) (dumpsV (.str s) ++ rest) = some (.str s, rest) := by
  have hshape : dumpsV (.str s) ++ rest = qchar :: (escapeList s.data ++ qchar :: rest) := by
    rw [dumpsV, strChars]
    simp
  rw [hshape, parseValue.eq_def]
  simp only [if_neg (show ¬(qchar = 'n') from by decide),
    if_neg (show ¬(qchar = 't') from by decide),
    if_neg (show ¬(qchar = 'f') from by decide),
    if_pos (show qchar = qchar from rfl)]
  rw [parseStrBody_round s.data rest]
  rfl

theorem rtV_num (f : Nat) (rest : List Char) (n : Int) (hrest : restOk rest = true) :
    parseValue (f + 1) (dumpsV (.num n) ++ rest) = some (.num n, rest) := by
  rw [dumpsV]
  by_cases hneg : n < 0
  · rw [show intChars n ++ rest = '-' :: (natToChars (-n).toNat ++ rest) by
      rw [intChars, if_pos hneg]; simp]
    rw [parseValue.eq_def]
    have hpn : parseNum ('-' :: (natToChars (-n).toNat ++ rest)) = some (n, rest) := by
      have h := parseNum_round n rest hrest
      rw [intChars, if_pos hneg] at h
      simpa using h
    simp only [if_neg (show ¬('-' = 'n') from by decide),
      if_neg (show ¬('-' = 't') from by decide),
      if_neg (show ¬('-' = 'f') from by decide),
      if_neg (show ¬('-' = qchar) from by decide),
      if_neg (show ¬('-' = '[') from by decide),
      if_neg (show ¬('-' = lbrace) from by decide),
      hpn, mapPair]
  · rcases natToChars_head n.toNat with ⟨c, cs, hc, h48, h57⟩
    rcases digit_char_facts c h48 h57 with ⟨hws, hdig, hbr, hminus, hn, ht, hf, hq, hlb, hcb⟩
    rw [show intChars n ++ rest = c :: (cs ++ rest) by
      rw [intChars, if_neg hneg, hc]; simp]
    rw [parseValue.eq_def]
    have hpn : parseNum (c :: (cs ++ rest)) = some (n, rest) := by
      have h := parseNum_round n rest hrest
      rw [intChars, if_neg hneg, hc] at h
      simpa using h
    simp only [if_neg hn, if_neg ht, if_neg hf, if_neg hq, if_neg hlb, if_neg hcb,
      hpn, mapPair]

theorem dumpsItems_head (x : Json) (xs : JsonList) :
    ∃ c cs, dumpsItems (.cons x xs) = c :: cs ∧ jsonWs c = false ∧ c ≠ ']' := by
  rcases dumpsV_head x with ⟨c, cs, hc, hws, hbr⟩
  cases xs with
  | nil => exact ⟨c, cs, by rw [dumpsItems, hc], hws, hbr⟩
  | cons h2 t =>
    refine ⟨c, cs ++ ',' :: ' ' :: dumpsItems (.cons h2 t), ?_, hws, hbr⟩
    rw [dumpsItems, hc]
    simp

theorem skipWs_dumpsItems (x : Json) (xs : JsonList) (r : List Char) :
    skipWs (dumpsItems (.cons x xs) ++ r) = dumpsItems (.cons x xs) ++ r := by
  rcases dumpsItems_head x xs with ⟨c, cs, hc, hws, _⟩
  rw [hc, List.cons_append, skipWs_not_ws c _ hws]

theorem dumpsFields_shape (k : String) (v : Json) (fs : JsonObj) :
    ∃ tail, dumpsFields (.cons k v fs) = qchar :: tail := by
  cases fs with
  | nil =>
    refine ⟨escapeList k.data ++ [qchar] ++ (':' :: ' ' :: dumpsV v), ?_⟩
    rw [dumpsFields, strChars]
    simp
  | cons k2 v2 t =>
    refine ⟨escapeList k.data ++ [qchar] ++
      (':' :: ' ' :: dumpsV v ++ ',' :: ' ' :: dumpsFields (.cons k2 v2 t)), ?_⟩
    rw [dumpsFields, strChars]
    simp

theorem skipWs_dumpsFields (k : String) (v : Json) (fs : JsonObj) (r : List Char) :
    skipWs (dumpsFields (.cons k v fs) ++ r) = dumpsFields (.cons k v fs) ++ r := by
  rcases dumpsFields_shape k v fs with ⟨tail, hc⟩
  rw [hc, List.cons_append, skipWs_not_ws qchar _ (by decide)]

theorem restOk_comma (l : List Char) : restOk (',' :: l) = true := rfl

theorem restOk_rbracket (l : List Char) : restOk (']' :: l) = true := rfl

theorem restOk_rbrace (l : List Char) : restOk (rbrace :: l) = true := rfl

mutual

theorem rtV : ∀ (j : Json) (f : Nat) (rest : List Char), safeV j = true → weightV j ≤ f →
    restOk rest = true → parseValue f (dumpsV j ++ rest) = some (j, rest)
  | .null, f, rest, _, hw, _ => by
    rw [weightV] at hw
    obtain ⟨f', rfl⟩ : ∃ f', f = f' + 1 := ⟨f - 1, by omega⟩
    exact rtV_null f' rest
  | .bool true, f, rest, _, hw, _ => by
    rw [weightV] at hw
    obtain ⟨f', rfl⟩ : ∃ f', f = f' + 1 := ⟨f - 1, by omega⟩
    exact rtV_true f' rest
  | .bool false, f, rest, _, hw, _ => by
    rw [weightV] at hw
    obtain ⟨f', rfl⟩ : ∃ f', f = f' + 1 := ⟨f - 1, by omega⟩
    exact rtV_false f' rest
  | .num n, f, rest, _, hw, hrest => by
    rw [weightV] at hw
    obtain ⟨f', rfl⟩ : ∃ f', f = f' + 1 := ⟨f - 1, by omega⟩
    exact rtV_num f' rest n hrest
  | .str s, f, rest, _, hw, _ => by
    rw [weightV] at hw
    obtain ⟨f', rfl⟩ : ∃ f', f = f' + 1 := ⟨f - 1, by omega⟩
    exact rtV_str f' rest s
  | .arr .nil, f, rest, _, hw, _ => by
    rw [weightV] at hw
    obtain ⟨f', rfl⟩ : ∃ f', f = f' + 1 := ⟨f - 1, by omega⟩
    exact rtV_arrnil f' rest
  | .arr (.cons h t), f, rest, hsafe, hw, hrest => by
    rw [weightV, weightL] at hw
    obtain ⟨f', rfl⟩ : ∃ f', f = f' + 1 := ⟨f - 1, by omega⟩
    rw [safeV] at hsafe
    have hshape : dumpsV (.arr (.cons h t)) ++ rest =
        '[' :: (dumpsItems (.cons h t) ++ ']' :: rest) := by
      rw [dumpsV]
      simp
    rw [hshape, parseValue.eq_def]
    rcases dumpsItems_head h t with ⟨c, cs, hc, hws, hbr⟩
    simp only [if_neg (show ¬('[' = 'n') from by decide),
      if_neg (show ¬('[' = 't') from by decide),
      if_neg (show ¬('[' = 'f') from by decide),
      if_neg (show ¬('[' = qchar) from by decide),
      if_pos (show ('[' : Char) = '[' from rfl)]
    rw [skipWs_dumpsItems h t, hc, List.cons_append]
    simp only [if_neg hbr]
    rw [← List.cons_append, ← hc]
    rw [rtL (.cons h t) f' rest (by simp) hsafe (by rw [weightL]; omega)]
    rfl
  | .obj .nil, f, rest, _, hw, _ => by
    rw [weightV] at hw
    obtain ⟨f', rfl⟩ : ∃ f', f = f' + 1 := ⟨f - 1, by omega⟩
    exact rtV_objnil f' rest
  | .obj (.cons k v t), f, rest, hsafe, hw, hrest => by
    rw [weightV, weightO] at hw
    obtain ⟨f', rfl⟩ : ∃ f', f = f' + 1 := ⟨f - 1, by omega⟩
    rw [safeV] at hsafe
    have hshape : dumpsV (.obj (.cons k v t)) ++ rest =
        lbrace :: (dumpsFields (.cons k v t) ++ rbrace :: rest) := by
      rw [dumpsV]
      simp
    rw [hshape, parseValue.eq_def]
    rcases dumpsFields_shape k v t with ⟨tail, htail⟩
    simp only [if_neg (show ¬(lbrace = 'n') from by decide),
      if_neg (show ¬(lbrace = 't') from by decide),
      if_neg (show ¬(lbrace = 'f') from by decide),
      if_neg (show ¬(lbrace = qchar) from by decide),
      if_neg (show ¬(lbrace = '[') from by decide),
      if_pos (show lbrace = lbrace from rfl)]
    rw [skipWs_dumpsFields k v t, htail, List.cons_append]
    simp only [if_neg (show ¬(qchar = rbrace) from by decide)]
    rw [← List.cons_append, ← htail]
    rw [rtO (.cons k v t) f' rest (by simp) hsafe (by rw [weightO]; omega)]
    simp only [mapPair]
    rw [objOfPairs_pairsOf (.cons k v t) hsafe]
    simp

theorem rtL : ∀ (xs : JsonList) (f : Nat) (rest : List Char), xs ≠ .nil → safeL xs = true →
    weightL xs ≤ f → parseItems f (dumpsItems xs ++ ']' :: rest) = some (xs, rest)
  | .nil, _, _, hne, _, _ => absurd rfl hne
  | .cons x xs, f, rest, _, hsafe, hw => by
    rw [weightL] at hw
    obtain ⟨f', rfl⟩ : ∃ f', f = f' + 1 := ⟨f - 1, by omega⟩
    rw [safeL] at hsafe
    simp only [Bool.and_eq_true] at hsafe
    cases xs with
    | nil =>
      rw [show dumpsItems (.cons x .nil) ++ ']' :: rest = dumpsV x ++ (']' :: rest) from by
        rw [dumpsItems]]
      rw [parseItems.eq_def]
      simp only [rtV x f' (']' :: rest) hsafe.1 (by omega) (restOk_rbracket rest),
        Option.bind, skipWs_not_ws ']' rest (by decide)]
    | cons h2 t2 =>
      rw [show dumpsItems (.cons x (.cons h2 t2)) ++ ']' :: rest =
          dumpsV x ++ (',' :: ' ' :: (dumpsItems (.cons h2 t2) ++ ']' :: rest)) from by
        rw [dumpsItems]
        simp]
      rw [parseItems.eq_def]
      simp only [rtV x f' _ hsafe.1 (by omega) (restOk_comma _), Option.bind,
        skipWs_not_ws ',' _ (by decide), skipWs_sp, skipWs_dumpsItems h2 t2,
        rtL (.cons h2 t2) f' rest (by simp) hsafe.2 (by omega), mapPair]

theorem rtO : ∀ (fs : JsonObj) (f : Nat) (rest : List Char), fs ≠ .nil → safeO fs = true →
    weightO fs ≤ f → parseFields f (dumpsFields fs ++ rbrace :: rest) =
      some (pairsOf fs, rest)
  | .nil, _, _, hne, _, _ => absurd rfl hne
  | .cons k v fs, f, rest, _, hsafe, hw => by
    rw [weightO] at hw
    obtain ⟨f', rfl⟩ : ∃ f', f = f' + 1 := ⟨f - 1, by omega⟩
    rw [safeO] at hsafe
    simp only [Bool.and_eq_true, Bool.not_eq_true'] at hsafe
    rw [parseFields.eq_def]
    cases fs with
    | nil =>
      have hshape : dumpsFields (.cons k v .nil) ++ rbrace :: rest =
          qchar :: (escapeList k.data ++ qchar ::
            (':' :: ' ' :: (dumpsV v ++ rbrace :: rest))) := by
        rw [dumpsFields, strChars]
        simp
      rw [hshape]
      simp only [if_pos (show qchar = qchar from rfl), if_true]
      rw [parseStrBody_round k.data _]
      simp only [skipWs_not_ws ':' _ (by decide), skipWs_sp, skipWs_dumpsV v,
        rtV v f' (rbrace :: rest) hsafe.1.2 (by omega) (restOk_rbrace rest), Option.bind,
        skipWs_not_ws rbrace _ (by decide)]
      simp [rbrace, pairsOf]
    | cons k2 v2 t =>
      have hshape : dumpsFields (.cons k v (.cons k2 v2 t)) ++ rbrace :: rest =
          qchar :: (escapeList k.data ++ qchar ::
            (':' :: ' ' :: (dumpsV v ++ ',' :: ' ' ::
              (dumpsFields (.cons k2 v2 t) ++ rbrace :: rest)))) := by
        rw [dumpsFields, strChars]
        simp
      rw [hshape]
      simp only [if_pos (show qchar = qchar from rfl), if_true]
      rw [parseStrBody_round k.data _]
      simp only [skipWs_not_ws ':' _ (by decide), skipWs_sp, skipWs_dumpsV v,
        rtV v f' _ hsafe.1.2 (by omega) (restOk_comma _), Option.bind,
        skipWs_not_ws ',' _ (by decide), skipWs_dumpsFields k2 v2 t,
        rtO (.cons k2 v2 t) f' rest (by simp) hsafe.2 (by omega)]
      simp [mapPair, pairsOf]

end

theorem loads_dumps (j : Json) (h : safeV j = true) : loads (dumps j) = some j := by
  rw [loads]
  have hd : (dumps j).data = dumpsV j := rfl
  rw [hd]
  have hskip : skipWs (dumpsV j) = dumpsV j := by
    have h2 := skipWs_dumpsV j []
    simpa using h2
  rw [hskip]
  have hfuel : weightV j ≤ 2 * (dumpsV j).length + 2 :=
    le_trans (weightV_le j) (by omega)
  have hparse : parseValue (2 * (dumpsV j).length + 2) (dumpsV j) = some (j, []) := by
    have h3 := rtV j (2 * (dumpsV j).length + 2) [] h hfuel rfl
    simpa using h3
  rw [hparse]
  rfl

/-- Claim C7: decoding the stored encoding of a JSON-safe object payload (an
object whose key sets are duplicate-free at every level, i.e. any Python dict
tree) returns the payload itself: `loads (dumps P) = some P`. -/
theorem C7_roundtrip (fs : JsonObj) (h : safeV (.obj fs) = true) :
    loads (dumps (.obj fs)) = some (.obj fs) :=
  loads_dumps (.obj fs) h

theorem C7_roundtrip_witness :
    safeV scenarioP1 = true ∧ loads (dumps scenarioP1) = some scenarioP1 :=
  ⟨rfl, C7_roundtrip
    (JsonObj.cons "age" (.str "18-24")
      (JsonObj.cons "will_use" (.arr (.cons (.str "yes") .nil))
        (JsonObj.cons "why_use" (.arr (.cons (.str "speed") (.cons (.str "cost") .nil)))
          JsonObj.nil))) rfl⟩
